import Mathlib

/-!
Verification development for the WhatsApp chat-export parser
(`whatsapp_wrapped/parser.py`).

The Python source is shallowly embedded: every definition below is a
direct executable translation of a function, constant, or inline
expression of `parser.py` (the canonical polars implementation).
Library calls made by the source (`datetime.strptime`, `re` matching for
the fixed patterns appearing in the file, polars string expressions) are
modelled by executable Lean functions that implement the documented
semantics of those calls for exactly the patterns and inputs the source
uses.  Machine text is modelled as `List Char` / `String`; timestamps as
a record of `Nat` fields.

Unicode caveat, stated once: where Python performs Unicode-aware
case-folding or word-character tests, the model implements the ASCII and
Latin-1 ranges (the only ranges exercised by the fixed keyword/phrase
tables of the source, which are ASCII plus `í`, `ñ`, `á`, `é`).
-/

namespace WW

/-! ## Character helpers (Python `str` / `re` semantics, ASCII + Latin-1) -/

/-- Python whitespace (`str.strip()` / regex `\s`), ASCII range. -/
def isPySpace (c : Char) : Bool :=
  c = ' ' || c = '\t' || c = '\n' || c = '\r' || c = '\x0b' || c = '\x0c'

/-- Regex word character `\w` (letters, digits, underscore), ASCII range. -/
def isWordC (c : Char) : Bool :=
  c.isAlphanum || c = '_'

/-- Python `str.lower` for one character, ASCII plus the Latin-1 letter
block (`À`..`Þ` except `×` map to `à`..`þ`). -/
def pyLowerC (c : Char) : Char :=
  if 'A' ≤ c ∧ c ≤ 'Z' then Char.ofNat (c.toNat + 32)
  else if 0xC0 ≤ c.toNat ∧ c.toNat ≤ 0xDE ∧ c.toNat ≠ 0xD7 then Char.ofNat (c.toNat + 32)
  else c

/-- Python `str.upper` for one character, ASCII range (used only on
`[APap][Mm]` matches). -/
def pyUpperC (c : Char) : Char :=
  if 'a' ≤ c ∧ c ≤ 'z' then Char.ofNat (c.toNat - 32) else c

/-- Case-insensitive character comparison (regex `re.IGNORECASE`). -/
def lowEq (a b : Char) : Bool := pyLowerC a = pyLowerC b

def pyLowerL (l : List Char) : List Char := l.map pyLowerC

def pyLowerS (s : String) : String := ⟨pyLowerL s.data⟩

/-- `str.lstrip()` on a character list. -/
def lstripWs (l : List Char) : List Char := l.dropWhile isPySpace

/-- `str.rstrip()` on a character list. -/
def rstripWs (l : List Char) : List Char := (l.reverse.dropWhile isPySpace).reverse

/-- `str.strip()` on a character list. -/
def pyStripL (l : List Char) : List Char := lstripWs (rstripWs l)

def pyStripS (s : String) : String := ⟨pyStripL s.data⟩

def digitVal (c : Char) : Nat := c.toNat - '0'.toNat

/-! ## Timestamps: `datetime` values produced by `datetime.strptime` -/

structure PyDateTime where
  year : Nat
  month : Nat
  day : Nat
  hour : Nat
  minute : Nat
  second : Nat
deriving DecidableEq, Repr

/-- Lexicographic comparison on the printed wall-clock fields — the order
polars uses to sort the `timestamp` column. -/
def dtLe (a b : PyDateTime) : Bool :=
  if a.year ≠ b.year then a.year < b.year
  else if a.month ≠ b.month then a.month < b.month
  else if a.day ≠ b.day then a.day < b.day
  else if a.hour ≠ b.hour then a.hour < b.hour
  else if a.minute ≠ b.minute then a.minute < b.minute
  else a.second ≤ b.second

def isLeapYear (y : Nat) : Bool :=
  y % 4 = 0 && (y % 100 ≠ 0 || y % 400 = 0)

def daysInMonth (y m : Nat) : Nat :=
  if m = 2 then (if isLeapYear y then 29 else 28)
  else if m = 4 ∨ m = 6 ∨ m = 9 ∨ m = 11 then 30
  else 31

/-! ## `datetime.strptime`

CPython's `_strptime` compiles the format into a regex: each directive
becomes a bounded digit alternation (e.g. `%d` ⇒ `3[01]|[12]\d|0[1-9]|[1-9]`,
two-digit branches before the one-digit branch), whitespace runs in the
format become `\s+`, other characters are literal, the whole regex is
compiled with `re.IGNORECASE`, matched from the start, and the match must
consume the entire string.  The matched fields then build a `datetime`,
which validates the calendar date and field ranges.  The model below
implements exactly that for the directives used by `DATE_FORMATS`
(`%d %m %y %Y %H %I %M %S %p`). -/

inductive FTok where
  | dir : Char → FTok
  | lit : Char → FTok
  | wsp : FTok
deriving DecidableEq, Repr

def dirChars : List Char := ['d', 'm', 'y', 'Y', 'H', 'I', 'M', 'S', 'p']

/-- Tokenize a strptime format string.  Whitespace runs collapse into a
single `\s+` token, as CPython's `re.sub(r"\s+", r"\\s+", format)` does.
Fuel-driven so the kernel can evaluate it; fuel `= length + 1` always
suffices because every step consumes at least one character. -/
def tokenizeFmtAux : Nat → List Char → Option (List FTok)
  | 0, _ => none
  | _, [] => some []
  | fuel + 1, '%' :: c :: rest =>
    if dirChars.contains c then (tokenizeFmtAux fuel rest).map (FTok.dir c :: ·) else none
  | fuel + 1, c :: rest =>
    if isPySpace c then (tokenizeFmtAux fuel (rest.dropWhile isPySpace)).map (FTok.wsp :: ·)
    else (tokenizeFmtAux fuel rest).map (FTok.lit c :: ·)

def tokenizeFmt (fmt : List Char) : Option (List FTok) :=
  tokenizeFmtAux (fmt.length + 1) fmt

/-- Fields captured by a strptime match. -/
structure PF where
  fy : Option Nat
  fY : Option Nat
  fm : Option Nat
  fd : Option Nat
  fH : Option Nat
  fI : Option Nat
  fMi : Option Nat
  fS : Option Nat
  fp : Option Bool
deriving DecidableEq, Repr

def PF.empty : PF := ⟨none, none, none, none, none, none, none, none, none⟩

/-- Is `v` (a two-digit reading) accepted by the two-digit alternation
branches of directive `c`'s regex? -/
def range2ok (c : Char) (v : Nat) : Bool :=
  if c = 'd' then 1 ≤ v && v ≤ 31
  else if c = 'm' then 1 ≤ v && v ≤ 12
  else if c = 'H' then v ≤ 23
  else if c = 'I' then 1 ≤ v && v ≤ 12
  else if c = 'M' then v ≤ 59
  else if c = 'S' then v ≤ 61
  else false

/-- Is `v` (a one-digit reading) accepted by the one-digit branch of
directive `c`'s regex? (`[1-9]` for `%d %m %I`, `\d` for `%H %M %S`.) -/
def range1ok (c : Char) (v : Nat) : Bool :=
  if c = 'd' ∨ c = 'm' ∨ c = 'I' then 1 ≤ v
  else c = 'H' ∨ c = 'M' ∨ c = 'S'

def PF.store (f : PF) (c : Char) (v : Nat) : PF :=
  if c = 'd' then { f with fd := some v }
  else if c = 'm' then { f with fm := some v }
  else if c = 'H' then { f with fH := some v }
  else if c = 'I' then { f with fI := some v }
  else if c = 'M' then { f with fMi := some v }
  else { f with fS := some v }

/-- Match a token list against input characters, with the backtracking
the compiled regex performs (two-digit branches tried before the
one-digit branch). -/
def matchToks : List FTok → List Char → PF → Option PF
  | [], [], f => some f
  | [], _ :: _, _ => none
  | .wsp :: ts, l, f =>
    match l with
    | c :: rest => if isPySpace c then matchToks ts (rest.dropWhile isPySpace) f else none
    | [] => none
  | .lit c :: ts, l, f =>
    match l with
    | x :: rest => if lowEq c x then matchToks ts rest f else none
    | [] => none
  | .dir c :: ts, l, f =>
    if c = 'p' then
      match l with
      | a :: b :: rest =>
        if pyLowerC a = 'a' && pyLowerC b = 'm' then matchToks ts rest { f with fp := some false }
        else if pyLowerC a = 'p' && pyLowerC b = 'm' then matchToks ts rest { f with fp := some true }
        else none
      | _ => none
    else if c = 'Y' then
      match l with
      | a :: b :: c2 :: d :: rest =>
        if a.isDigit && b.isDigit && c2.isDigit && d.isDigit then
          let v := digitVal a * 1000 + digitVal b * 100 + digitVal c2 * 10 + digitVal d
          matchToks ts rest { f with fY := some v }
        else none
      | _ => none
    else if c = 'y' then
      match l with
      | a :: b :: rest =>
        if a.isDigit && b.isDigit then
          matchToks ts rest { f with fy := some (digitVal a * 10 + digitVal b) }
        else none
      | _ => none
    else
      -- %d %m %H %I %M %S: try the two-digit branches, then the one-digit branch
      let two :=
        match l with
        | a :: b :: rest =>
          if a.isDigit && b.isDigit && range2ok c (digitVal a * 10 + digitVal b) then
            matchToks ts rest (f.store c (digitVal a * 10 + digitVal b))
          else none
        | _ => none
      match two with
      | some r => some r
      | none =>
        match l with
        | a :: rest =>
          if a.isDigit && range1ok c (digitVal a) then
            matchToks ts rest (f.store c (digitVal a))
          else none
        | [] => none

/-- Build and validate the `datetime`, as the `datetime(...)` constructor
does after a successful regex match (`%y` pivots at 69; `%I` combines
with `%p`; seconds 60/61 pass the regex but fail the constructor). -/
def assembleDT (f : PF) : Option PyDateTime :=
  let year :=
    match f.fY with
    | some v => v
    | none =>
      match f.fy with
      | some v => if v ≤ 68 then 2000 + v else 1900 + v
      | none => 1900
  let month := f.fm.getD 1
  let day := f.fd.getD 1
  let hour :=
    match f.fI with
    | some i =>
      match f.fp with
      | some true => if i = 12 then 12 else i + 12
      | _ => if i = 12 then 0 else i
    | none => f.fH.getD 0
  let minute := f.fMi.getD 0
  let second := f.fS.getD 0
  if 1 ≤ year && 1 ≤ month && month ≤ 12 && 1 ≤ day && day ≤ daysInMonth year month &&
      hour ≤ 23 && minute ≤ 59 && second ≤ 59 then
    some ⟨year, month, day, hour, minute, second⟩
  else none

/-- `datetime.strptime(s, fmt)`, `none` for `ValueError`. -/
def strptime (s fmt : String) : Option PyDateTime :=
  match tokenizeFmt fmt.data with
  | none => none
  | some ts => (matchToks ts s.data PF.empty).bind assembleDT

/-! ## `DATE_FORMATS` (transcribed in source order) -/

def DATE_FORMATS : List String := [
  "%d-%m-%y, %H:%M:%S",
  "%d/%m/%y, %H:%M:%S",
  "%m/%d/%y, %H:%M:%S",
  "%d-%m-%Y, %H:%M:%S",
  "%d/%m/%Y, %H:%M:%S",
  "%m/%d/%Y, %H:%M:%S",
  "%d-%m-%y, %H:%M",
  "%d/%m/%y, %H:%M",
  "%m/%d/%y, %H:%M",
  "%Y-%m-%d, %H:%M:%S",
  "%d.%m.%y, %H:%M:%S",
  "%d.%m.%Y, %H:%M:%S",
  "%m/%d/%y, %I:%M:%S %p",
  "%m/%d/%y, %I:%M %p",
  "%d/%m/%y, %I:%M:%S %p",
  "%d/%m/%y, %I:%M %p",
  "%m/%d/%Y, %I:%M:%S %p",
  "%m/%d/%Y, %I:%M %p",
  "%d/%m/%Y, %I:%M:%S %p",
  "%d/%m/%Y, %I:%M %p",
  "%d-%m-%y, %I:%M:%S %p",
  "%d-%m-%y, %I:%M %p",
  "%d-%m-%Y, %I:%M:%S %p",
  "%d-%m-%Y, %I:%M %p",
  "%Y/%m/%d, %H:%M:%S",
  "%Y/%m/%d, %H:%M",
  "%Y-%m-%d, %I:%M:%S %p",
  "%Y-%m-%d, %I:%M %p",
  "%Y/%m/%d, %I:%M:%S %p",
  "%Y/%m/%d, %I:%M %p",
  "%Y.%m.%d, %H:%M:%S",
  "%Y.%m.%d, %H:%M",
  "%Y.%m.%d, %I:%M:%S %p",
  "%Y.%m.%d, %I:%M %p",
  "%d.%m.%y, %I:%M:%S %p",
  "%d.%m.%y, %I:%M %p",
  "%d.%m.%Y, %I:%M:%S %p",
  "%d.%m.%Y, %I:%M %p",
  "%d/%m/%y %H:%M:%S",
  "%d/%m/%y %H:%M",
  "%m/%d/%y %H:%M:%S",
  "%m/%d/%y %H:%M",
  "%d-%m-%y %H:%M:%S",
  "%d-%m-%y %H:%M",
  "%d-%m-%Y %H:%M:%S",
  "%d-%m-%Y %H:%M",
  "%d/%m/%Y %H:%M:%S",
  "%d/%m/%Y %H:%M",
  "%m/%d/%Y %H:%M:%S",
  "%m/%d/%Y %H:%M",
  "%d.%m.%y %H:%M:%S",
  "%d.%m.%y %H:%M",
  "%d.%m.%Y %H:%M:%S",
  "%d.%m.%Y %H:%M",
  "%d/%m/%y %I:%M:%S %p",
  "%d/%m/%y %I:%M %p",
  "%m/%d/%y %I:%M:%S %p",
  "%m/%d/%y %I:%M %p",
  "%d/%m/%Y %I:%M:%S %p",
  "%d/%m/%Y %I:%M %p",
  "%m/%d/%Y %I:%M:%S %p",
  "%m/%d/%Y %I:%M %p",
  "%Y-%m-%dT%H:%M:%S",
  "%Y-%m-%dT%H:%M"]

/-! ## `_parse_timestamp` normalization

`_parse_timestamp` applies, in order:
  1. `re.sub(r"([APap])\.([Mm])\.", r"\1\2", s)`   (`A.M.` → `AM`)
  2. `re.sub(r"(\d)([APap][Mm])", r"\1 \2", s)`    (`3:45PM` → `3:45 PM`)
  3. `re.sub(r"\b([APap][Mm])\b", upper, s)`       (`pm` → `PM`)
  4. the dotted-time fix guarded by `re.search(r"[,\s]\d{1,2}\.\d{2}", s)`.
Each substitution scans left to right, replaces non-overlapping matches,
and resumes after the replacement, which is what the scanners below do. -/

def isAP (c : Char) : Bool := c = 'A' || c = 'P' || c = 'a' || c = 'p'

def isM (c : Char) : Bool := c = 'M' || c = 'm'

/-- The match condition of substitution 1 at a four-character window. -/
def sub1Guard (a c1 b c2 : Char) : Bool :=
  isAP a && c1 = '.' && isM b && c2 = '.'

/-- Substitution 1: collapse `X.Y.` (X meridiem letter, Y `[Mm]`) to `XY`. -/
def sub1 : List Char → List Char
  | a :: c1 :: b :: c2 :: rest =>
    if sub1Guard a c1 b c2 then a :: b :: sub1 rest
    else a :: sub1 (c1 :: b :: c2 :: rest)
  | l => l

/-- The match condition of substitution 2 at a three-character window. -/
def sub2Guard (a b c : Char) : Bool :=
  a.isDigit && isAP b && isM c

/-- Substitution 2: insert a space between a digit and `[APap][Mm]`. -/
def sub2 : List Char → List Char
  | a :: b :: c :: rest =>
    if sub2Guard a b c then a :: ' ' :: b :: c :: sub2 rest
    else a :: sub2 (b :: c :: rest)
  | l => l

def isWordO : Option Char → Bool
  | some c => isWordC c
  | none => false

/-- The match condition of substitution 3: `[APap][Mm]` between word
boundaries (`prev` the character before the window, `next` the one
after). -/
def sub3Guard (prev : Option Char) (a b : Char) (next : Option Char) : Bool :=
  !isWordO prev && isAP a && isM b && !isWordO next

/-- Substitution 3: uppercase `[APap][Mm]` when enclosed in word
boundaries; `prev` is the character just before the scanning position
(`none` at the start of the string). -/
def sub3 (prev : Option Char) : List Char → List Char
  | a :: b :: rest =>
    if sub3Guard prev a b rest.head? then
      pyUpperC a :: pyUpperC b :: sub3 (some (pyUpperC b)) rest
    else a :: sub3 (some a) (b :: rest)
  | [a] => [a]
  | [] => []

def isCWS (c : Char) : Bool := c = ',' || isPySpace c

/-- `re.search(r"[,\s]\d{1,2}\.\d{2}", s)`: does the pattern occur
anywhere? (The `\d{1,2}` lets the window be digit-dot or digit-digit-dot.) -/
def dotTimeAt : List Char → Bool
  | d1 :: '.' :: d3 :: d4 :: _ => d1.isDigit && d3.isDigit && d4.isDigit
  | _ => false

def dotTimeAt2 : List Char → Bool
  | d1 :: d2 :: '.' :: d3 :: d4 :: _ => d1.isDigit && d2.isDigit && d3.isDigit && d4.isDigit
  | _ => false

def hasDotTime : List Char → Bool
  | [] => false
  | c :: rest => (isCWS c && (dotTimeAt rest || dotTimeAt2 rest)) || hasDotTime rest

/-- `re.split(r"([,\s]+)", s, maxsplit=1)`: split at the first maximal
run of `[,\s]` characters, keeping the separator. -/
def splitFirstSep : List Char → Option (List Char × List Char × List Char)
  | [] => none
  | c :: rest =>
    if isCWS c then
      some ([], c :: rest.takeWhile isCWS, rest.dropWhile isCWS)
    else
      (splitFirstSep rest).map fun (a, s, b) => (c :: a, s, b)

/-- Normalization step 4: when a dotted time is detected, replace every
dot after the first date/time separator with a colon. -/
def dotfix (l : List Char) : List Char :=
  if hasDotTime l then
    match splitFirstSep l with
    | some (a, sep, b) => a ++ sep ++ b.map (fun c => if c = '.' then ':' else c)
    | none => l
  else l

/-- The full normalization `_parse_timestamp` performs before trying any
format (including the initial `timestamp_str.strip()`). -/
def normalizeTimestampStr (s : String) : String :=
  ⟨dotfix (sub3 none (sub2 (sub1 (pyStripL s.data))))⟩

/-- The `for fmt in date_formats` loop: first format that parses wins. -/
def tryFormats (t : String) : List String → Option (PyDateTime × String)
  | [] => none
  | f :: fs =>
    match strptime t f with
    | some r => some (r, f)
    | none => tryFormats t fs

/-- `_parse_timestamp(timestamp_str, date_formats, cached_format)`.

The mutable one-element `cached_format` list is modelled as an explicit
cache-in/cache-out pair: `cache = none` covers both "no cache list
supplied" and "cache list holding None" (the two are observationally
identical: the cached-format fast path is skipped and the full list is
scanned).  On a cache hit the cache is unchanged; on a successful
full-list scan the successful format is stored; on total failure the
cache keeps its previous content. -/
def parseTimestampCached (s : String) (fmts : List String) (cache : Option String) :
    Option PyDateTime × Option String :=
  let t := normalizeTimestampStr s
  let hit :=
    match cache with
    | some cf => strptime t cf
    | none => none
  match hit with
  | some r => (some r, cache)
  | none =>
    match tryFormats t fmts with
    | some (r, f) => (some r, some f)
    | none => (none, cache)

/-! ## `_detect_date_order` -/

/-- Separator class of the date regex: dash, slash, or dot. -/
def dateSep (c : Char) : Bool := c = '-' || c = '/' || c = '.'

def takeDigitsN : Nat → List Char → Option (List Char)
  | 0, l => some l
  | _ + 1, [] => none
  | n + 1, c :: l => if c.isDigit then takeDigitsN n l else none

def digitsValue : List Char → Nat → Nat
  | [], acc => acc
  | c :: l, acc => digitsValue l (acc * 10 + digitVal c)

/-- Candidate remainders after consuming `k` digits, longest first,
paired with the value read. -/
def digitChoices (lens : List Nat) (l : List Char) : List (Nat × List Char) :=
  lens.filterMap fun k =>
    (takeDigitsN k l).map fun rest => (digitsValue (l.take k) 0, rest)

def sepChoice (l : List Char) : List (List Char) :=
  match l with
  | c :: rest => if dateSep c then [rest] else []
  | [] => []

/-- Try to match the date pattern `(\d{1,2}) sep (\d{1,2}) sep (\d{2,4})`
(sep the class above) at the head of `l`, with the regex's greedy
preference order (two digits before one, four-digit year first).
Returns the two leading components and the rest after the match. -/
def dateAt (l : List Char) : Option (Nat × Nat × List Char) :=
  ((digitChoices [2, 1] l).flatMap fun (d1, r1) =>
    (sepChoice r1).flatMap fun r2 =>
      (digitChoices [2, 1] r2).flatMap fun (d2, r3) =>
        (sepChoice r3).flatMap fun r4 =>
          (digitChoices [4, 3, 2] r4).map fun (_, r5) => (d1, d2, r5)).head?

/-- `re.findall` scan: leftmost non-overlapping matches, resuming after
each match.  Fuel-driven (fuel `= length + 1` suffices: each step
consumes at least one character). -/
def findDatesAux : Nat → List Char → List (Nat × Nat)
  | 0, _ => []
  | _ + 1, [] => []
  | fuel + 1, c :: rest =>
    match dateAt (c :: rest) with
    | some (d1, d2, r) => (d1, d2) :: findDatesAux fuel r
    | none => findDatesAux fuel rest

def findDates (l : List Char) : List (Nat × Nat) :=
  findDatesAux (l.length + 1) l

/-- `_detect_date_order(raw_text)`. -/
def detect_date_order (raw : String) : String :=
  let ms := findDates raw.data
  let hasFirst := ms.any fun (d1, _) => 12 < d1
  let hasSecond := ms.any fun (_, d2) => 12 < d2
  if hasFirst && !hasSecond then "DD/MM"
  else if hasSecond && !hasFirst then "MM/DD"
  else "ambiguous"

/-- The reordered local copy of `DATE_FORMATS` built at the top of
`parse_chat` from the detected date order. -/
def dateFormatsToUse (raw : String) : List String :=
  let ord := detect_date_order raw
  if ord = "DD/MM" then
    (DATE_FORMATS.filter (fun f => "%d".data.isPrefixOf f.data)) ++
    (DATE_FORMATS.filter (fun f => "%Y".data.isPrefixOf f.data)) ++
    (DATE_FORMATS.filter (fun f => "%m".data.isPrefixOf f.data))
  else if ord = "MM/DD" then
    (DATE_FORMATS.filter (fun f => "%m".data.isPrefixOf f.data)) ++
    (DATE_FORMATS.filter (fun f => "%Y".data.isPrefixOf f.data)) ++
    (DATE_FORMATS.filter (fun f => "%d".data.isPrefixOf f.data))
  else DATE_FORMATS

/-! ## Message line patterns

`MESSAGE_PATTERNS[0]` (iOS): `\[(.+?)\] (.+?):\s*(.*)`, matched with
`re.match` (anchored at the start only).  The lazy groups mean: the
timestamp is the text up to the first `"] "` from which the rest of the
line still matches `name:msg` (with at least one character of name
before the first usable `:`); on failure the scan moves to the next
`"] "`.  `SYSTEM_MESSAGE_PATTERNS[0]`: `\[(.+?)\] (.+)$`. -/

/-- The Unicode direction marks LRM (U+200E) and RLM (U+200F). -/
def isMark (c : Char) : Bool := c.toNat = 0x200E || c.toNat = 0x200F

/-- Split `(.+?):\s*(.*)`: name is everything before the first `:` that
has at least one character in front of it; the message is the rest with
leading whitespace (`\s*`) removed by the caller. -/
def colonSplitAux : List Char → List Char → Option (List Char × List Char)
  | acc, c :: rest =>
    if c = ':' && acc ≠ [] then some (acc.reverse, rest)
    else colonSplitAux (c :: acc) rest
  | _, [] => none

def userScan0 : List Char → List Char → Option (String × String × String)
  | acc, ']' :: ' ' :: rest =>
    (if acc ≠ [] then
      match colonSplitAux [] rest with
      | some (n, m) => some (⟨acc.reverse⟩, ⟨n⟩, ⟨m.dropWhile isPySpace⟩)
      | none => userScan0 (']' :: acc) (' ' :: rest)
    else userScan0 (']' :: acc) (' ' :: rest))
  | acc, c :: rest => userScan0 (c :: acc) rest
  | _, [] => none

/-- `re.match(MESSAGE_PATTERNS[0], line)`: groups (timestamp, name, message). -/
def matchUser0 (l : List Char) : Option (String × String × String) :=
  match l with
  | '[' :: rest => userScan0 [] rest
  | _ => none

def sysScan0 : List Char → List Char → Option (String × String)
  | acc, ']' :: ' ' :: rest =>
    (if acc ≠ [] && rest ≠ [] then some (⟨acc.reverse⟩, ⟨rest⟩)
    else sysScan0 (']' :: acc) (' ' :: rest))
  | acc, c :: rest => sysScan0 (c :: acc) rest
  | _, [] => none

/-- `re.match(SYSTEM_MESSAGE_PATTERNS[0], line)`: groups (timestamp, message). -/
def matchSys0 (l : List Char) : Option (String × String) :=
  match l with
  | '[' :: rest => sysScan0 [] rest
  | _ => none

/-! The Android timestamp sub-pattern of `MESSAGE_PATTERNS[1]` /
`SYSTEM_MESSAGE_PATTERNS[1]`:

  `\d{1,4} S \d{1,2} S \d{1,4} [,\sT]+ \d{1,2} [:\.]? \d{2}`
  `(?:[:\.]?\d{2})? (?:\s*[APap]\.?[Mm]\.?)?`

(`S` the dash/slash/dot class).  It is modelled by enumerating candidate
remainders in exactly the regex's backtracking order: greedy bounded
repeats try longer first, optional pieces try "present" before
"absent". -/

/-- Candidate remainders after consuming `k` digits, longest `k` first. -/
def digitCho (lens : List Nat) (l : List Char) : List (List Char) :=
  lens.filterMap (takeDigitsN · l)

def isCWST (c : Char) : Bool := c = ',' || c = 'T' || isPySpace c

/-- Greedy `cls+`: remainders after consuming the run's maximal length
down to 1. -/
def runPlus (p : Char → Bool) (l : List Char) : List (List Char) :=
  let n := (l.takeWhile p).length
  (List.range n).map fun i => l.drop (n - i)

/-- Greedy `\s*`: remainders after consuming the maximal run down to 0. -/
def wsStar (l : List Char) : List (List Char) :=
  let n := (l.takeWhile isPySpace).length
  (List.range (n + 1)).map fun i => l.drop (n - i)

/-- `[:\.]?` (greedy: present before absent). -/
def optTimeSep (l : List Char) : List (List Char) :=
  match l with
  | c :: r => if c = ':' ∨ c = '.' then [r, l] else [l]
  | [] => [l]

/-- `\.?` (greedy). -/
def optDotLit (l : List Char) : List (List Char) :=
  match l with
  | '.' :: r => [r, l]
  | _ => [l]

def clsCho (p : Char → Bool) (l : List Char) : List (List Char) :=
  match l with
  | c :: r => if p c then [r] else []
  | [] => []

/-- `(?:[:\.]?\d{2})?`: with separator, without separator, absent. -/
def optSeconds (l : List Char) : List (List Char) :=
  ((optTimeSep l).flatMap fun r => (takeDigitsN 2 r).toList) ++ [l]

/-- `(?:\s*[APap]\.?[Mm]\.?)?`: all "present" parses in greedy order,
then "absent". -/
def optMeridiem (l : List Char) : List (List Char) :=
  ((wsStar l).flatMap fun r1 =>
    (clsCho isAP r1).flatMap fun r2 =>
      (optDotLit r2).flatMap fun r3 =>
        (clsCho isM r3).flatMap fun r4 => optDotLit r4) ++ [l]

/-- All candidate remainders after the Android timestamp sub-pattern, in
the regex's backtracking order. -/
def matchTS1 (l : List Char) : List (List Char) :=
  (digitCho [4, 3, 2, 1] l).flatMap fun r1 =>
    (clsCho dateSep r1).flatMap fun r2 =>
      (digitCho [2, 1] r2).flatMap fun r3 =>
        (clsCho dateSep r3).flatMap fun r4 =>
          (digitCho [4, 3, 2, 1] r4).flatMap fun r5 =>
            (runPlus isCWST r5).flatMap fun r6 =>
              (digitCho [2, 1] r6).flatMap fun r7 =>
                (optTimeSep r7).flatMap fun r8 =>
                  (takeDigitsN 2 r8).toList.flatMap fun r9 =>
                    (optSeconds r9).flatMap fun r10 => optMeridiem r10

/-- `\s*-\s*` after the timestamp group.  `-` is not whitespace, so only
the maximal `\s*` run can be followed by `-`; the match is
deterministic. -/
def dashStage (l : List Char) : Option (List Char) :=
  match l.dropWhile isPySpace with
  | '-' :: r => some (r.dropWhile isPySpace)
  | _ => none

/-- `re.match(MESSAGE_PATTERNS[1], line)`: groups (timestamp, name, message). -/
def matchUser1 (l : List Char) : Option (String × String × String) :=
  (matchTS1 l).findSome? fun rem =>
    (dashStage rem).bind fun r =>
      (colonSplitAux [] r).map fun (n, m) =>
        (⟨l.take (l.length - rem.length)⟩, ⟨n⟩, ⟨m.dropWhile isPySpace⟩)

/-- `re.match(SYSTEM_MESSAGE_PATTERNS[1], line)`: groups (timestamp, message). -/
def matchSys1 (l : List Char) : Option (String × String) :=
  (matchTS1 l).findSome? fun rem =>
    (dashStage rem).bind fun r =>
      if r ≠ [] then some (⟨l.take (l.length - rem.length)⟩, ⟨r⟩) else none

/-- One pass of the per-line pattern attempt: try the user-message
pattern of family `fam`, then the system-message pattern; a system match
is assigned the literal author `"System"` (as the loop body does). -/
def lineMatch (fam : Nat) (l : List Char) : Option (String × String × String) :=
  if fam = 0 then
    match matchUser0 l with
    | some (t, n, m) => some (t, n, m)
    | none => (matchSys0 l).map fun (t, m) => (t, "System", m)
  else
    match matchUser1 l with
    | some (t, n, m) => some (t, n, m)
    | none => (matchSys1 l).map fun (t, m) => (t, "System", m)

/-! ## The segmentation loop of `parse_chat`

Python's `current_message` is a dict held *by reference* in the
`messages` list: after `messages.append(current_message)` later
`current_message["message"] += ...` mutations are visible through the
list, and a second `append` puts the *same* dict in the list twice.
This is modelled with a store of messages plus a list of store indices
(`out`): appending pushes the current index, mutation updates the store,
and the final message list reads the store through `out`.

Each line is also assigned a `Fate` — `opened` (it started a new
message), `folded` (its text was appended to the body of the open
message), or `dropped` (no open message to attach it to) — recording how
the loop accounted for the line. -/

structure Msg where
  timestamp : PyDateTime
  name : String
  message : String
deriving DecidableEq, Repr

inductive Fate where
  | opened
  | folded
  | dropped
deriving DecidableEq, Repr

structure SegState where
  store : List Msg
  out : List Nat
  curr : Option Nat
  cache : Option String
  fates : List Fate
deriving Repr

def initSeg : SegState := ⟨[], [], none, none, []⟩

/-- `current_message["message"] += "\n" + line.strip()` through the store. -/
def updateBody (store : List Msg) (i : Nat) (line : String) : List Msg :=
  match store.get? i with
  | some m => store.set i { m with message := m.message ++ "\n" ++ pyStripS line }
  | none => store

/-- The body of `for line in lines`, translated clause by clause:
strip leading direction marks; try patterns; on a match, first append
the open message, then parse the timestamp; a valid timestamp opens a
new message, an invalid one downgrades the line to a continuation;
a non-matching line is a continuation of the open message or dropped. -/
def segStep (fam : Nat) (fmts : List String) (st : SegState) (rawLine : String) : SegState :=
  let l := rawLine.data.dropWhile isMark
  match lineMatch fam l with
  | some (ts, name, msg) =>
    let out1 :=
      match st.curr with
      | some i => st.out ++ [i]
      | none => st.out
    match parseTimestampCached ts fmts st.cache with
    | (some t, cache1) =>
      { store := st.store ++ [⟨t, pyStripS name, pyStripS msg⟩]
        out := out1
        curr := some st.store.length
        cache := cache1
        fates := st.fates ++ [Fate.opened] }
    | (none, cache1) =>
      match st.curr with
      | some i =>
        { store := updateBody st.store i ⟨l⟩
          out := out1
          curr := st.curr
          cache := cache1
          fates := st.fates ++ [Fate.folded] }
      | none =>
        { st with out := out1, cache := cache1, fates := st.fates ++ [Fate.dropped] }
  | none =>
    match st.curr with
    | some i =>
      { st with store := updateBody st.store i ⟨l⟩, fates := st.fates ++ [Fate.folded] }
    | none => { st with fates := st.fates ++ [Fate.dropped] }

def runFamilyState (fam : Nat) (fmts : List String) (lines : List String) : SegState :=
  lines.foldl (segStep fam fmts) initSeg

/-- The `messages` list at the end of one family pass (including the
trailing `if current_message: messages.append(current_message)`). -/
def segResult (st : SegState) : List Msg :=
  let out2 :=
    match st.curr with
    | some i => st.out ++ [i]
    | none => st.out
  out2.filterMap (st.store.get? ·)

/-! ## Message-kind classification (polars expression chain in `parse_chat`)

Each media check is `msg_normalized.str.contains(r"^<?(kw|..)(\s+\S+){1,2}>?$")`
(Rust regex: `$` is strict end of haystack), the location check is
`str.contains(r"^<?(location|ubicación):")`, and the link check is
`pl.col("message").str.contains(r"https?://")` on the raw body.  Since
`\s` and `\S` are complementary, a `(\s+\S+){1,2}` parse must use maximal
runs, except that the final `\S+` may stop just before a terminal `>`
absorbed by `>?` — which accepts exactly the same strings; the matcher
below uses maximal runs. -/

def dropLt (l : List Char) : List Char :=
  match l with
  | c :: r => if c = '<' then r else c :: r
  | [] => []

def notSpace (c : Char) : Bool := !isPySpace c

/-- Does `t` match `(\s+\S+){1,2}>?$`? -/
def tailWordsMatch (t : List Char) : Bool :=
  match t with
  | [] => false
  | c :: _ =>
    if !isPySpace c then false
    else
      let u := t.dropWhile isPySpace
      let w := u.takeWhile notSpace
      if w.isEmpty then false
      else
        let r := u.dropWhile notSpace
        if r = [] ∨ r = ['>'] then true
        else
          let u2 := r.dropWhile isPySpace
          if u2.length = r.length then false  -- r must start with whitespace
          else
            let w2 := u2.takeWhile notSpace
            if w2.isEmpty then false
            else
              let r2 := u2.dropWhile notSpace
              r2 = [] ∨ r2 = ['>']

/-- Does the normalized body match `^<?(kw1|kw2|..)(\s+\S+){1,2}>?$`? -/
def mediaMatch (kws : List String) (s : List Char) : Bool :=
  let s1 := dropLt s
  kws.any fun kw => kw.data.isPrefixOf s1 && tailWordsMatch (s1.drop kw.data.length)

/-- Does the normalized body match `^<?(location|ubicación):`? -/
def locMatch (s : List Char) : Bool :=
  let s1 := dropLt s
  "location:".data.isPrefixOf s1 || "ubicación:".data.isPrefixOf s1

/-- Is `p` a contiguous sublist of `l` (regex/`in` substring search)? -/
def isSubList (p : List Char) : List Char → Bool
  | [] => p.isEmpty
  | c :: rest => p.isPrefixOf (c :: rest) || isSubList p rest

/-- `str.contains(r"https?://")` on the raw body. -/
def containsHttp (m : String) : Bool :=
  isSubList "http://".data m.data || isSubList "https://".data m.data

def stripMarksBoth (l : List Char) : List Char :=
  ((l.dropWhile isMark).reverse.dropWhile isMark).reverse

/-- `msg_normalized`: strip direction marks, strip whitespace, lowercase. -/
def msgNormalized (m : String) : List Char :=
  pyLowerL (pyStripL (stripMarksBoth m.data))

/-- The `pl.when...otherwise` chain assigning `message_type`, in source
order: image, video, audio, sticker, gif, document, contact, location,
link, text. -/
def classifyMessagePolars (m : String) : String :=
  let n := msgNormalized m
  if mediaMatch ["image", "imagen", "foto", "photo", "media"] n then "image"
  else if mediaMatch ["video", "vídeo"] n then "video"
  else if mediaMatch ["audio"] n then "audio"
  else if mediaMatch ["sticker"] n then "sticker"
  else if mediaMatch ["gif"] n then "gif"
  else if mediaMatch ["document", "documento"] n then "document"
  else if mediaMatch ["contact"] n then "contact"
  else if locMatch n then "location"
  else if containsHttp m then "link"
  else "text"

/-! ## `_classify_message_type` (defined in the source, not called by
`parse_chat`, which uses the polars chain above instead) -/

def MEDIA_KEYWORDS : List (String × String) := [
  ("video", "video"), ("vídeo", "video"), ("image", "image"),
  ("imagen", "image"), ("foto", "image"), ("photo", "image"),
  ("audio", "audio"), ("sticker", "sticker"), ("gif", "gif"),
  ("document", "document"), ("documento", "document"),
  ("contact", "contact"), ("media", "image"),
  ("location", "location"), ("ubicación", "location")]

/-- Python `str.split()` (split on whitespace runs, dropping empties). -/
def pySplitAux : List Char → List Char → List (List Char)
  | [], acc => if acc.isEmpty then [] else [acc.reverse]
  | c :: rest, acc =>
    if isPySpace c then
      (if acc.isEmpty then pySplitAux rest [] else acc.reverse :: pySplitAux rest [])
    else pySplitAux rest (c :: acc)

def pyWords (l : List Char) : List (List Char) := pySplitAux l []

def classifyMessageType (message : String) : String :=
  let clean0 := pyStripL (stripMarksBoth message.data)
  let clean1 :=
    if clean0.head? = some '<' ∧ clean0.getLast? = some '>' then
      pyStripL ((clean0.drop 1).dropLast)
    else clean0
  if containsHttp message then "link"
  else
    let ws := pyWords (pyLowerL clean1)
    if 1 ≤ ws.length ∧ ws.length ≤ 3 then
      match ws.head? with
      | some w =>
        match MEDIA_KEYWORDS.find? (fun kv => kv.1.data = w) with
        | some kv => kv.2
        | none => "text"
      | none => "text"
    else "text"

/-! ## `parse_chat`: rows, sorting, assembly -/

structure Row where
  timestamp : PyDateTime
  name : String
  name_original : String
  message : String
  message_type : String
deriving DecidableEq, Repr

/-- `pl.col("name").str.replace_all(r"[^\w\s]", "").str.strip_chars()`. -/
def cleanName (s : String) : String :=
  pyStripS ⟨s.data.filter (fun c => isWordC c || isPySpace c)⟩

def mkRow (m : Msg) : Row :=
  ⟨m.timestamp, cleanName m.name, m.name, m.message, classifyMessagePolars m.message⟩

/-- `df.sort("timestamp")`.  polars is called with its default
`maintain_order=False`, which leaves the relative order of equal
timestamps implementation-defined; the model refines this to one
admissible order (a stable insertion sort).  No claim theorem relies on
the tie order. -/
def insertRowSorted (r : Row) : List Row → List Row
  | [] => [r]
  | x :: xs => if dtLe x.timestamp r.timestamp then x :: insertRowSorted r xs else r :: x :: xs

def sortRows (rows : List Row) : List Row :=
  rows.foldl (fun acc r => insertRowSorted r acc) []

/-- `raw_text.replace("\r\n", "\n")` (leftmost, non-overlapping). -/
def replaceCRLF : List Char → List Char
  | '\r' :: '\n' :: rest => '\n' :: replaceCRLF rest
  | c :: rest => c :: replaceCRLF rest
  | [] => []

/-- `str.split(sep)` for a one-character separator: separators delimit
fields, empty fields kept. -/
def splitOnCh (sep : Char) : List Char → List (List Char)
  | [] => [[]]
  | c :: rest =>
    if c = sep then [] :: splitOnCh sep rest
    else
      match splitOnCh sep rest with
      | h :: t => (c :: h) :: t
      | [] => [[c]]

def splitLines : List Char → List (List Char) := splitOnCh '\n' 

/-- One full pass of pattern family `fam` over the export: normalize
line endings, compute the prioritized format list, split into lines,
fold the loop body over them. -/
def familyPass (fam : Nat) (raw : String) : SegState :=
  let raw1 : String := ⟨replaceCRLF raw.data⟩
  runFamilyState fam (dateFormatsToUse raw1) ((splitLines raw1.data).map fun l => (⟨l⟩ : String))

/-- The segmentation part of `parse_chat`: run pattern family 0 over all
lines, fall back to family 1 if it produced nothing (the loop breaks as
soon as a family yields messages).  Returns the messages of the chosen
pass together with the per-line fates of that pass. -/
def parseChatCore (raw : String) : List Msg × List Fate :=
  let m0 := segResult (familyPass 0 raw)
  if m0.isEmpty then (segResult (familyPass 1 raw), (familyPass 1 raw).fates)
  else (m0, (familyPass 0 raw).fates)

def ERR_NO_MESSAGES : String :=
  "Could not parse any messages from the chat. The format may not be supported."

/-- `parse_chat(raw_text)`: error when no messages were segmented by any
pattern family, otherwise the assembled, classified, sorted table. -/
def parse_chat (raw : String) : Except String (List Row) :=
  let msgs := (parseChatCore raw).1
  if msgs.isEmpty then Except.error ERR_NO_MESSAGES
  else Except.ok (sortRows (msgs.map mkRow))

/-- The per-line fates of the pattern-family pass `parse_chat` used. -/
def parseChatFates (raw : String) : List Fate := (parseChatCore raw).2

/-! ## Filters and the `parse_whatsapp_export` pipeline -/

def SYSTEM_PATTERNS : List String := [
  "añadió a", "added", "removed", "eliminó a", "left", "salió",
  "changed the subject", "cambió el asunto", "changed this group",
  "cambió el ícono", "created group", "creó el grupo",
  "Messages and calls are end-to-end encrypted",
  "Los mensajes y las llamadas están cifrados"]

/-- `str.contains(pattern, literal=False)` where the pattern is an
alternation of the literal phrases: true iff some phrase is a substring.
polars regex matching is case-sensitive (no flag is passed). -/
def containsPhrase (m p : String) : Bool := isSubList p.data m.data

def filter_system_messages (df : List Row) : List Row :=
  df.filter fun r => !(SYSTEM_PATTERNS.any fun p => containsPhrase r.message p)

def BOT_NAMES : List String := ["Meta AI", "meta ai"]

def filter_bot_users (df : List Row) : List Row :=
  df.filter fun r => !((BOT_NAMES.map pyLowerS).contains (pyLowerS r.name))

/-- `if year_filter: df = df.filter(... dt.year() == year_filter)`
(`0` is falsy in Python, so a zero year applies no filter). -/
def yearFilterStep (y : Option Nat) (df : List Row) : List Row :=
  match y with
  | some yv => if yv ≠ 0 then df.filter (fun r => r.timestamp.year = yv) else df
  | none => df

/-- `if min_messages > 1`: keep rows of authors with at least
`min_messages` rows. -/
def minMessagesStep (mm : Nat) (df : List Row) : List Row :=
  if 1 < mm then df.filter (fun r => mm ≤ df.countP (fun q => q.name = r.name)) else df

/-- `parse_whatsapp_export` from raw chat text onward (file loading and
decoding, the step before `parse_chat`, is modelled separately by
`load_chat_file` below). -/
def parse_whatsapp_export (raw : String) (filterSystem : Bool) (minMessages : Nat)
    (yearFilter : Option Nat) : Except String (List Row) :=
  (parse_chat raw).map fun df =>
    let df1 := if filterSystem then filter_system_messages df else df
    let df2 := filter_bot_users df1
    let df3 := yearFilterStep yearFilter df2
    minMessagesStep minMessages df3

/-! ## `load_chat_file` extension dispatch -/

/-- `pathlib.PurePath.name`: the final path component (posix form). -/
def pathName (p : String) : String :=
  ⟨((((splitOnCh '/' p.data).filter (· ≠ [])).getLast?).getD [])⟩

/-- `pathlib.PurePath.suffix`: the extension of the final component —
`name[i:]` for the last dot at position `0 < i < len - 1`, else `""`. -/
def pathSuffix (p : String) : String :=
  let name := (pathName p).data
  match name.reverse.findIdx? (· = '.') with
  | some j =>
    let i := name.length - 1 - j
    if 0 < i ∧ i < name.length - 1 then ⟨name.drop i⟩ else ""
  | none => ""

inductive ChatLoader where
  | zipL
  | txtL
deriving DecidableEq, Repr

/-- `load_chat_file`'s control flow, with the filesystem existence check
abstracted into a boolean and the two loader bodies abstracted into the
choice they dispatch to. -/
def load_chat_file (path : String) (fileExists : Bool) : Except String ChatLoader :=
  if !fileExists then Except.error ("Chat file not found: " ++ path)
  else if pyLowerS (pathSuffix path) = ".zip" then Except.ok ChatLoader.zipL
  else if pyLowerS (pathSuffix path) = ".txt" then Except.ok ChatLoader.txtL
  else Except.error ("Unsupported file format: " ++ pathSuffix path)

/-! # Claim theorems -/

/-! ## C1: a start-pattern line with an unparseable timestamp -/

/-- Input whose second line matches the start-of-message pattern but
carries a timestamp no candidate format accepts. -/
def c1Input : String :=
  "[12/25/23, 10:30:45] Alice: Hello\n[99/99/99, 99:99] B: x\n[12/25/23, 10:31:20] Bob: Hi"

def c1AliceRow : Row :=
  ⟨⟨2023, 12, 25, 10, 30, 45⟩, "Alice", "Alice", "Hello\n[99/99/99, 99:99] B: x", "text"⟩

def c1BobRow : Row :=
  ⟨⟨2023, 12, 25, 10, 31, 20⟩, "Bob", "Bob", "Hi", "text"⟩

/-- C1: the downgraded line *is* folded into the previous message's body
(`Fate.folded`, and the body ends with the line's text) — but, because
the loop emits the open message as soon as the pattern matches, *before*
validating the timestamp, the still-open message is appended again at the
next valid header: Alice's message appears twice in the output, not
exactly once as the claim states. -/
theorem c1_downgraded_line_duplicates_message :
  parseChatFates c1Input = [Fate.opened, Fate.folded, Fate.opened] ∧
  parse_chat c1Input = Except.ok [c1AliceRow, c1AliceRow, c1BobRow] ∧
  List.count c1AliceRow [c1AliceRow, c1AliceRow, c1BobRow] = 2 :=
  ⟨rfl, rfl, by decide⟩

/-! ## C2: line accounting in the segmentation loop -/

/-- Loop invariant of the segmentation pass: the fates so far are a
(possibly empty) block of `dropped` lines followed by a block of
non-`dropped` lines; the second block is nonempty exactly when a message
is open; and while no message has ever been opened, nothing has been
emitted. -/
def SegInv (st : SegState) : Prop :=
  (∃ pre post : List Fate,
    st.fates = pre ++ post ∧
    (∀ f ∈ pre, f = Fate.dropped) ∧
    (∀ f ∈ post, f ≠ Fate.dropped) ∧
    (st.curr.isSome = true ↔ post ≠ [])) ∧
  (st.curr = none → st.out = [])

theorem segInv_init : SegInv initSeg := by
  refine ⟨⟨[], [], rfl, by simp, by simp, by simp [initSeg]⟩, fun _ => rfl⟩

theorem segInv_step (fam : Nat) (fmts : List String) (st : SegState) (line : String)
    (h : SegInv st) : SegInv (segStep fam fmts st line) := by
  obtain ⟨⟨pre, post, hf, hpre, hpost, hcur⟩, hout⟩ := h
  have nondroppedSnoc : ∀ (g : Fate), g ≠ Fate.dropped →
      ∀ f ∈ post ++ [g], f ≠ Fate.dropped := by
    intro g hg f hfm
    rcases List.mem_append.mp hfm with hin | hin
    · exact hpost f hin
    · simp at hin
      simp [hin, hg]
  have droppedSnoc : ∀ f ∈ pre ++ [Fate.dropped], f = Fate.dropped := by
    intro f hfm
    rcases List.mem_append.mp hfm with hin | hin
    · exact hpre f hin
    · simpa using hin
  unfold segStep
  rcases hm : lineMatch fam (line.data.dropWhile isMark) with _ | ⟨ts, name, msg⟩
  · rcases hc : st.curr with _ | i
    · have hpostnil : post = [] := by
        by_contra hne
        have := hcur.mpr hne
        simp [hc] at this
      simp only [hm, hc]
      exact ⟨⟨pre ++ [Fate.dropped], [], by simp [hf, hpostnil], droppedSnoc,
        by simp, by simp⟩, fun _ => hout hc⟩
    · simp only [hm, hc]
      exact ⟨⟨pre, post ++ [Fate.folded], by simp [hf], hpre,
        nondroppedSnoc _ (by decide), by simp⟩, by simp⟩
  · rcases hp : parseTimestampCached ts fmts st.cache with ⟨od, cache1⟩
    rcases od with _ | t
    · rcases hc : st.curr with _ | i
      · have hpostnil : post = [] := by
          by_contra hne
          have := hcur.mpr hne
          simp [hc] at this
        simp only [hm, hp, hc]
        exact ⟨⟨pre ++ [Fate.dropped], [], by simp [hf, hpostnil], droppedSnoc,
          by simp, by simp⟩, fun _ => hout hc⟩
      · simp only [hm, hp, hc]
        exact ⟨⟨pre, post ++ [Fate.folded], by simp [hf], hpre,
          nondroppedSnoc _ (by decide), by simp⟩, by simp⟩
    · simp only [hm, hp]
      exact ⟨⟨pre, post ++ [Fate.opened], by simp [hf], hpre,
        nondroppedSnoc _ (by decide), by simp⟩, by simp⟩

theorem segInv_foldl (fam : Nat) (fmts : List String) :
    ∀ (lines : List String) (st : SegState), SegInv st →
      SegInv (lines.foldl (segStep fam fmts) st) := by
  intro lines
  induction lines with
  | nil => exact fun st h => h
  | cons l ls ih => exact fun st h => ih _ (segInv_step fam fmts st l h)

theorem segInv_familyPass (fam : Nat) (raw : String) : SegInv (familyPass fam raw) := by
  unfold familyPass runFamilyState
  exact segInv_foldl _ _ _ _ segInv_init

theorem count_fates_nondropped (l : List Fate) (h : ∀ f ∈ l, f ≠ Fate.dropped) :
    l.count Fate.opened + l.count Fate.folded = l.length := by
  induction l with
  | nil => simp
  | cons f t ih =>
    have hf := h f (by simp)
    have ht : ∀ g ∈ t, g ≠ Fate.dropped := fun g hg => h g (by simp [hg])
    cases f <;> simp_all [List.count_cons] <;> omega

theorem count_fates_dropped (l : List Fate) (h : ∀ f ∈ l, f = Fate.dropped) :
    l.count Fate.opened = 0 ∧ l.count Fate.folded = 0 := by
  constructor <;>
    refine List.count_eq_zero.mpr fun hmem => ?_ <;>
      exact absurd (h _ hmem) (by decide)

/-- A terminated pass that produced at least one message accounts for
its lines as an all-`dropped` block followed by a nonempty block of
`opened`/`folded` lines. -/
theorem segState_accounting (st : SegState) (hinv : SegInv st) (hne : segResult st ≠ []) :
    ∃ pre post : List Fate,
      st.fates = pre ++ post ∧
      (∀ f ∈ pre, f = Fate.dropped) ∧
      (∀ f ∈ post, f ≠ Fate.dropped) ∧
      post ≠ [] ∧
      st.fates.count Fate.opened + st.fates.count Fate.folded = post.length := by
  obtain ⟨⟨pre, post, hf, hpre, hpost, hcur⟩, hout⟩ := hinv
  have hsome : st.curr.isSome = true := by
    rcases hc : st.curr with _ | i
    · exact absurd (by simp [segResult, hc, hout hc]) hne
    · simp
  have hpostne : post ≠ [] := hcur.mp hsome
  refine ⟨pre, post, hf, hpre, hpost, hpostne, ?_⟩
  obtain ⟨ho, hfo⟩ := count_fates_dropped pre hpre
  rw [hf, List.count_append, List.count_append, ho, hfo]
  simpa using count_fates_nondropped post hpost

/-- The number of non-empty lines of the (EOL-normalized) input — the
quantity the claim's coverage equation refers to. -/
def nonEmptyLineCount (raw : String) : Nat :=
  ((splitLines (replaceCRLF raw.data)).filter (· ≠ [])).length

def c2Input : String := "x\n[12/25/23, 10:30:45] Alice: Hello"

def c2Row : Row := ⟨⟨2023, 12, 25, 10, 30, 45⟩, "Alice", "Alice", "Hello", "text"⟩

/-- C2 counterexample: on an input whose first line precedes any message
header, `parse_chat` recovers one message but the coverage equation
fails: 1 line opened + 0 lines folded ≠ 2 non-empty lines — the leading
line is dropped. -/
theorem c2_coverage_fails :
  parse_chat c2Input = Except.ok [c2Row] ∧
  parseChatFates c2Input = [Fate.dropped, Fate.opened] ∧
  (parseChatFates c2Input).count Fate.opened + (parseChatFates c2Input).count Fate.folded = 1 ∧
  nonEmptyLineCount c2Input = 2 ∧
  (1 : Nat) ≠ 2 :=
  ⟨rfl, rfl, rfl, rfl, by decide⟩

/-- C2 amended: for every input from which `parse_chat` recovers at
least one message, the lines of the chosen pattern-family pass split
into a (possibly empty) block of dropped lines — all of which precede
the first message-opening line — followed by a nonempty block in which
every line either opens a message or is folded into one; the number of
opening lines plus the number of folded lines equals the length of that
second block (the number of lines from the first opening line onward,
empty lines included). -/
theorem c2_amended_line_accounting :
  ∀ (raw : String) (df : List Row), parse_chat raw = Except.ok df →
    ∃ pre post : List Fate,
      parseChatFates raw = pre ++ post ∧
      (∀ f ∈ pre, f = Fate.dropped) ∧
      (∀ f ∈ post, f ≠ Fate.dropped) ∧
      post ≠ [] ∧
      (parseChatFates raw).count Fate.opened + (parseChatFates raw).count Fate.folded
        = post.length := by
  intro raw df h
  have hne : ¬((parseChatCore raw).1.isEmpty = true) := by
    intro hempty
    unfold parse_chat at h
    simp only [hempty, if_true] at h
    cases h
  by_cases h0 : (segResult (familyPass 0 raw)).isEmpty
  · have hchoice : parseChatCore raw =
        (segResult (familyPass 1 raw), (familyPass 1 raw).fates) := by
      unfold parseChatCore
      simp [h0]
    have hfates : parseChatFates raw = (familyPass 1 raw).fates := by
      simp [parseChatFates, hchoice]
    have hne1 : segResult (familyPass 1 raw) ≠ [] := by
      intro hnil
      exact hne (by simp [hchoice, hnil])
    rw [hfates]
    exact segState_accounting _ (segInv_familyPass 1 raw) hne1
  · have hchoice : parseChatCore raw =
        (segResult (familyPass 0 raw), (familyPass 0 raw).fates) := by
      unfold parseChatCore
      simp [h0]
    have hfates : parseChatFates raw = (familyPass 0 raw).fates := by
      simp [parseChatFates, hchoice]
    have hne0 : segResult (familyPass 0 raw) ≠ [] := by
      intro hnil
      exact h0 (by simp [hnil])
    rw [hfates]
    exact segState_accounting _ (segInv_familyPass 0 raw) hne0

/-- C2 amended, witnessed at `c2Input`. -/
theorem c2_amended_witness :
  ∃ pre post : List Fate,
    parseChatFates c2Input = pre ++ post ∧
    (∀ f ∈ pre, f = Fate.dropped) ∧
    (∀ f ∈ post, f ≠ Fate.dropped) ∧
    post ≠ [] ∧
    (parseChatFates c2Input).count Fate.opened + (parseChatFates c2Input).count Fate.folded
      = post.length :=
  c2_amended_line_accounting c2Input [c2Row] rfl

/-! ## C3: link detection versus the media-placeholder patterns -/

def c3Input : String := "[12/25/23, 10:30:45] A: video https://x.co"

/-- C3 counterexample: the body `"video https://x.co"` contains a URL,
yet `parse_chat` classifies it `"video"`, not `"link"` — the polars chain
checks the media patterns *before* the link pattern. -/
theorem c3_media_pattern_beats_link :
  containsHttp "video https://x.co" = true ∧
  parse_chat c3Input =
    Except.ok [⟨⟨2023, 12, 25, 10, 30, 45⟩, "A", "A", "video https://x.co", "video"⟩] ∧
  "video" ≠ "link" :=
  ⟨rfl, rfl, by decide⟩

/-- The disjunction of the eight placeholder checks the polars chain in
`parse_chat` performs before the link check. -/
def matchesPlaceholder (m : String) : Bool :=
  let n := msgNormalized m
  mediaMatch ["image", "imagen", "foto", "photo", "media"] n ||
  mediaMatch ["video", "vídeo"] n ||
  mediaMatch ["audio"] n ||
  mediaMatch ["sticker"] n ||
  mediaMatch ["gif"] n ||
  mediaMatch ["document", "documento"] n ||
  mediaMatch ["contact"] n ||
  locMatch n

/-- C3 amended: a body is classified `link` exactly when it contains a
URL *and* matches none of the media-placeholder/location patterns, which
are checked first and take precedence. -/
theorem c3_amended_link_iff :
  ∀ m : String,
    classifyMessagePolars m = "link" ↔
      (containsHttp m = true ∧ matchesPlaceholder m = false) := by
  intro m
  unfold classifyMessagePolars matchesPlaceholder
  cases h1 : mediaMatch ["image", "imagen", "foto", "photo", "media"] (msgNormalized m) <;>
  cases h2 : mediaMatch ["video", "vídeo"] (msgNormalized m) <;>
  cases h3 : mediaMatch ["audio"] (msgNormalized m) <;>
  cases h4 : mediaMatch ["sticker"] (msgNormalized m) <;>
  cases h5 : mediaMatch ["gif"] (msgNormalized m) <;>
  cases h6 : mediaMatch ["document", "documento"] (msgNormalized m) <;>
  cases h7 : mediaMatch ["contact"] (msgNormalized m) <;>
  cases h8 : locMatch (msgNormalized m) <;>
  cases h9 : containsHttp m <;>
  simp [h1, h2, h3, h4, h5, h6, h7, h8, h9]

/-! ## C4: word-count bounds of the media-placeholder classification -/

def c4Input : String := "[12/25/23, 10:30:45] A: sticker"

/-- C4 counterexample: the single-word body `"sticker"` is classified
`"text"` by `parse_chat` — the polars patterns `(\s+\S+){1,2}` require 2
or 3 words, so a 1-word body never matches. -/
theorem c4_single_word_sticker_is_text :
  parse_chat c4Input =
    Except.ok [⟨⟨2023, 12, 25, 10, 30, 45⟩, "A", "A", "sticker", "text"⟩] ∧
  classifyMessagePolars "sticker" = "text" ∧
  "text" ≠ "sticker" :=
  ⟨rfl, rfl, by decide⟩

/-! ### C4 amended: word-count characterization of the polars patterns

`(\s+\S+){1,2}` forces 2–3 whitespace-delimited words (the keyword plus
one or two more); the lemmas below prove the regex matchers equal to a
word-count-based description, for normalized (stripped) bodies. -/

theorem char_toNat_ofNat (n : Nat) (h : n < 55296) : (Char.ofNat n).toNat = n := by
  have hv : n.isValidChar := Or.inl h
  simp only [Char.ofNat, hv, dif_pos]
  rfl

theorem isPySpace_false_of_ge (c : Char) (h : 65 ≤ c.toNat) : isPySpace c = false := by
  unfold isPySpace
  have h1 : c ≠ ' ' := fun he => by rw [he] at h; exact absurd h (by decide)
  have h2 : c ≠ '\t' := fun he => by rw [he] at h; exact absurd h (by decide)
  have h3 : c ≠ '\n' := fun he => by rw [he] at h; exact absurd h (by decide)
  have h4 : c ≠ '\r' := fun he => by rw [he] at h; exact absurd h (by decide)
  have h5 : c ≠ '\x0b' := fun he => by rw [he] at h; exact absurd h (by decide)
  have h6 : c ≠ '\x0c' := fun he => by rw [he] at h; exact absurd h (by decide)
  simp [h1, h2, h3, h4, h5, h6]

/-- Lowercasing never turns a character into or out of whitespace. -/
theorem isPySpace_pyLowerC (c : Char) : isPySpace (pyLowerC c) = isPySpace c := by
  unfold pyLowerC
  split_ifs with h1 h2
  · have hA : 65 ≤ c.toNat := h1.1
    have hZ : c.toNat ≤ 90 := h1.2
    have ht : (Char.ofNat (c.toNat + 32)).toNat = c.toNat + 32 :=
      char_toNat_ofNat _ (by omega)
    rw [isPySpace_false_of_ge _ (by rw [ht]; omega), isPySpace_false_of_ge _ hA]
  · obtain ⟨hA, hZ, _⟩ := h2
    have ht : (Char.ofNat (c.toNat + 32)).toNat = c.toNat + 32 :=
      char_toNat_ofNat _ (by omega)
    rw [isPySpace_false_of_ge _ (by rw [ht]; omega), isPySpace_false_of_ge _ (by omega)]
  · rfl

theorem head?_dropWhile_false (p : Char → Bool) (l : List Char) (c : Char)
    (h : (l.dropWhile p).head? = some c) : p c = false := by
  have hd := List.head?_dropWhile_not p l
  rw [h] at hd
  exact hd

theorem head?_some_mem (l : List Char) (c : Char) (h : l.head? = some c) : c ∈ l := by
  cases l with
  | nil => cases h
  | cons a t =>
    cases h
    simp

theorem length_dropWhile_le' (p : Char → Bool) (l : List Char) :
    (l.dropWhile p).length ≤ l.length := by
  induction l with
  | nil => simp
  | cons a t ih =>
    rw [List.dropWhile_cons]
    split
    · exact Nat.le_trans ih (Nat.le_succ _)
    · simp

theorem trailing_of_append (pre t : List Char) (c : Char) (h : t.reverse.head? = some c) :
    (pre ++ t).reverse.head? = some c := by
  rw [List.reverse_append, List.head?_append, h]
  rfl

/-- A whitespace-only nonempty piece cannot sit at the end of a list
whose last character is not whitespace. -/
theorem trailing_contra (t r : List Char)
    (htr : ∀ c, t.reverse.head? = some c → isPySpace c = false)
    (pre : List Char) (hdecomp : t = pre ++ r) (hne : r ≠ [])
    (hall : ∀ x ∈ r, isPySpace x = true) : False := by
  subst hdecomp
  cases hrv : r.reverse with
  | nil =>
    exact hne (by simpa using congrArg List.reverse hrv)
  | cons x xs =>
    have hx : x ∈ r := by
      have hmem : x ∈ r.reverse := by rw [hrv]; simp
      exact List.mem_reverse.mp hmem
    have hhead : (pre ++ r).reverse.head? = some x :=
      trailing_of_append pre r x (by rw [hrv]; rfl)
    have h1 := htr x hhead
    have h2 := hall x hx
    rw [h1] at h2
    cases h2

/-- The first character of the stripped list is not whitespace. -/
theorem pyStrip_head (l : List Char) (c : Char) (h : (pyStripL l).head? = some c) :
    isPySpace c = false :=
  head?_dropWhile_false isPySpace (rstripWs l) c h

/-- The last character of the stripped list is not whitespace. -/
theorem pyStrip_last (l : List Char) (c : Char)
    (h : (pyStripL l).reverse.head? = some c) : isPySpace c = false := by
  have hx : rstripWs l = (rstripWs l).takeWhile isPySpace ++ pyStripL l :=
    (List.takeWhile_append_dropWhile isPySpace (rstripWs l)).symm
  have hhead : (rstripWs l).reverse.head? = some c := by
    conv_lhs => rw [hx]
    exact trailing_of_append _ _ c h
  have hrr : (rstripWs l).reverse = l.reverse.dropWhile isPySpace := by
    unfold rstripWs
    rw [List.reverse_reverse]
  rw [hrr] at hhead
  exact head?_dropWhile_false isPySpace l.reverse c hhead

theorem msgNormalized_head (m : String) (c : Char)
    (h : (msgNormalized m).head? = some c) : isPySpace c = false := by
  unfold msgNormalized pyLowerL at h
  rw [List.head?_map] at h
  cases hh : (pyStripL (stripMarksBoth m.data)).head? with
  | none => rw [hh] at h; cases h
  | some c0 =>
    rw [hh] at h
    have hc : c = pyLowerC c0 := by
      simpa using h.symm
    rw [hc, isPySpace_pyLowerC]
    exact pyStrip_head _ _ hh

theorem msgNormalized_last (m : String) (c : Char)
    (h : (msgNormalized m).reverse.head? = some c) : isPySpace c = false := by
  unfold msgNormalized pyLowerL at h
  rw [← List.map_reverse, List.head?_map] at h
  cases hh : (pyStripL (stripMarksBoth m.data)).reverse.head? with
  | none => rw [hh] at h; cases h
  | some c0 =>
    rw [hh] at h
    have hc : c = pyLowerC c0 := by
      simpa using h.symm
    rw [hc, isPySpace_pyLowerC]
    exact pyStrip_last _ _ hh

theorem isPrefixOf_iff_append (l₁ l₂ : List Char) :
    l₁.isPrefixOf l₂ = true ↔ ∃ t, l₂ = l₁ ++ t := by
  induction l₁ generalizing l₂ with
  | nil => simp [List.isPrefixOf]
  | cons a l₁' ih =>
    cases l₂ with
    | nil => simp [List.isPrefixOf]
    | cons b l₂' =>
      simp only [List.isPrefixOf, Bool.and_eq_true, beq_iff_eq, ih, List.cons_append,
        List.cons.injEq]
      constructor
      · rintro ⟨rfl, t, rfl⟩
        exact ⟨t, rfl, rfl⟩
      · rintro ⟨t, rfl, rfl⟩
        exact ⟨rfl, t, rfl⟩

theorem takeWhile_append_all (p : Char → Bool) (b : List Char)
    (hb : ∀ c, b.head? = some c → p c = false) :
    ∀ a : List Char, (∀ c ∈ a, p c = true) →
      (a ++ b).takeWhile p = a ∧ (a ++ b).dropWhile p = b := by
  intro a
  induction a with
  | nil =>
    intro _
    simp only [List.nil_append]
    cases b with
    | nil => simp
    | cons c b' =>
      have := hb c rfl
      rw [List.takeWhile_cons, List.dropWhile_cons, this]
      simp
  | cons x a' ih =>
    intro hall
    have hx := hall x (by simp)
    have ih' := ih (fun c hc => hall c (by simp [hc]))
    rw [List.cons_append, List.takeWhile_cons, List.dropWhile_cons, hx]
    simp [ih'.1, ih'.2]

theorem pySplitAux_acc (l : List Char) : ∀ acc : List Char, acc ≠ [] →
    pySplitAux l acc =
      (acc.reverse ++ l.takeWhile notSpace) :: pySplitAux (l.dropWhile notSpace) [] := by
  induction l with
  | nil =>
    intro acc hacc
    have : acc.isEmpty = false := by
      cases acc
      · exact absurd rfl hacc
      · rfl
    simp [pySplitAux, this]
  | cons a l' ih =>
    intro acc hacc
    have hne : acc.isEmpty = false := by
      cases acc
      · exact absurd rfl hacc
      · rfl
    by_cases ha : isPySpace a = true
    · have h1 : pySplitAux (a :: l') acc = acc.reverse :: pySplitAux l' [] := by
        simp [pySplitAux, ha, hne]
      have h2 : pySplitAux (a :: l') [] = pySplitAux l' [] := by
        simp [pySplitAux, ha]
      have h3 : (a :: l').takeWhile notSpace = [] := by
        rw [List.takeWhile_cons]
        simp [notSpace, ha]
      have h4 : (a :: l').dropWhile notSpace = a :: l' := by
        rw [List.dropWhile_cons]
        simp [notSpace, ha]
      rw [h1, h3, h4, h2]
      simp
    · have hns : notSpace a = true := by
        simp [notSpace]
        simpa using ha
      have h1 : pySplitAux (a :: l') acc = pySplitAux l' (a :: acc) := by
        simp [pySplitAux, (by simpa using ha : isPySpace a = false)]
      rw [h1, ih (a :: acc) (by simp)]
      rw [List.takeWhile_cons, List.dropWhile_cons]
      simp [hns]

theorem pyWords_nil : pyWords [] = [] := rfl

theorem pyWords_cons_ws (c : Char) (l : List Char) (h : isPySpace c = true) :
    pyWords (c :: l) = pyWords l := by
  simp [pyWords, pySplitAux, h]

theorem pyWords_cons_word (c : Char) (l : List Char) (h : isPySpace c = false) :
    pyWords (c :: l) =
      ((c :: l).takeWhile notSpace) :: pyWords ((c :: l).dropWhile notSpace) := by
  unfold pyWords
  rw [show pySplitAux (c :: l) [] = pySplitAux l [c] from by simp [pySplitAux, h]]
  rw [pySplitAux_acc l [c] (by simp)]
  rw [List.takeWhile_cons, List.dropWhile_cons]
  simp [notSpace, h]

theorem pyWords_dropWhile_ws (l : List Char) :
    pyWords (l.dropWhile isPySpace) = pyWords l := by
  induction l with
  | nil => rfl
  | cons c l' ih =>
    by_cases h : isPySpace c = true
    · rw [List.dropWhile_cons, if_pos h, ih, pyWords_cons_ws c l' h]
    · rw [List.dropWhile_cons, if_neg (by simp [h])]

/-- Word-count characterization of `(\s+\S+){1,2}>?$` on tails whose
last character is not whitespace. -/
theorem tailWordsMatch_iff (t : List Char)
    (htr : ∀ c, t.reverse.head? = some c → isPySpace c = false) :
    tailWordsMatch t = true ↔
      ((∃ c, t.head? = some c ∧ isPySpace c = true) ∧
       ((pyWords t).length = 1 ∨ (pyWords t).length = 2)) := by
  cases t with
  | nil => simp [tailWordsMatch]
  | cons c t' =>
    by_cases hc : isPySpace c = true
    case neg =>
      simp only [tailWordsMatch]
      rw [(by simpa using hc : isPySpace c = false)]
      simp [hc]
    case pos =>
      have hexists : ∃ c0, (c :: t').head? = some c0 ∧ isPySpace c0 = true := ⟨c, rfl, hc⟩
      have hwt : pyWords ((c :: t').dropWhile isPySpace) = pyWords (c :: t') :=
        pyWords_dropWhile_ws _
      have htdec : c :: t' = (c :: t').takeWhile isPySpace ++ (c :: t').dropWhile isPySpace :=
        (List.takeWhile_append_dropWhile isPySpace (c :: t')).symm
      simp only [tailWordsMatch]
      rw [hc]
      simp only [Bool.not_true, Bool.false_eq_true, if_false]
      cases hu : (c :: t').dropWhile isPySpace with
      | nil =>
        rw [hu] at hwt
        constructor
        · intro h
          simp at h
        · rintro ⟨_, hlen⟩
          rw [← hwt, pyWords_nil] at hlen
          simp at hlen
      | cons u0 u' =>
        have hu0 : isPySpace u0 = false :=
          head?_dropWhile_false isPySpace (c :: t') u0 (by rw [hu]; rfl)
        have hw : pyWords (u0 :: u') =
            ((u0 :: u').takeWhile notSpace) :: pyWords ((u0 :: u').dropWhile notSpace) :=
          pyWords_cons_word u0 u' hu0
        have hwne : ((u0 :: u').takeWhile notSpace).isEmpty = false := by
          rw [List.takeWhile_cons]
          simp [notSpace, hu0]
        have hudec : u0 :: u' =
            (u0 :: u').takeWhile notSpace ++ (u0 :: u').dropWhile notSpace :=
          (List.takeWhile_append_dropWhile notSpace (u0 :: u')).symm
        rw [hu] at hwt htdec
        rw [hwne]
        simp only [Bool.false_eq_true, if_false]
        cases hr : (u0 :: u').dropWhile notSpace with
        | nil =>
          simp only [if_pos (Or.inl rfl)]
          rw [hr] at hw
          rw [← hwt, hw, pyWords_nil]
          simp [hexists, hc]
        | cons r0 r' =>
          rw [hr] at hw
          have hr0 : notSpace r0 = false :=
            head?_dropWhile_false notSpace (u0 :: u') r0 (by rw [hr]; rfl)
          have hr0ws : isPySpace r0 = true := by
            simpa [notSpace] using hr0
          have hrne : ¬(r0 :: r' = [] ∨ r0 :: r' = ['>']) := by
            rintro (h | h)
            · cases h
            · have : r0 = '>' := by
                injection h with h1 _
              rw [this] at hr0ws
              cases hr0ws
          rw [if_neg hrne]
          have hlen2 : ((r0 :: r').dropWhile isPySpace).length ≠ (r0 :: r').length := by
            rw [List.dropWhile_cons, if_pos hr0ws]
            have := length_dropWhile_le' isPySpace r'
            simp
            omega
          rw [if_neg hlen2]
          have hw2t : pyWords ((r0 :: r').dropWhile isPySpace) = pyWords (r0 :: r') :=
            pyWords_dropWhile_ws _
          have hrdec : r0 :: r' =
              (r0 :: r').takeWhile isPySpace ++ (r0 :: r').dropWhile isPySpace :=
            (List.takeWhile_append_dropWhile isPySpace (r0 :: r')).symm
          rw [hr] at hudec
          cases hu2 : (r0 :: r').dropWhile isPySpace with
          | nil =>
            exfalso
            have hall : ∀ x ∈ r0 :: r', isPySpace x = true :=
              List.dropWhile_eq_nil_iff.mp hu2
            refine trailing_contra (c :: t') (r0 :: r') htr
              ((c :: t').takeWhile isPySpace ++ (u0 :: u').takeWhile notSpace) ?_
              (by simp) hall
            rw [List.append_assoc, ← hudec, ← htdec]
          | cons v0 v' =>
            have hv0 : isPySpace v0 = false :=
              head?_dropWhile_false isPySpace (r0 :: r') v0 (by rw [hu2]; rfl)
            have hw2 : pyWords (v0 :: v') =
                ((v0 :: v').takeWhile notSpace) :: pyWords ((v0 :: v').dropWhile notSpace) :=
              pyWords_cons_word v0 v' hv0
            have hw2ne : ((v0 :: v').takeWhile notSpace).isEmpty = false := by
              rw [List.takeWhile_cons]
              simp [notSpace, hv0]
            have hvdec : v0 :: v' =
                (v0 :: v').takeWhile notSpace ++ (v0 :: v').dropWhile notSpace :=
              (List.takeWhile_append_dropWhile notSpace (v0 :: v')).symm
            rw [hu2] at hw2t hrdec
            rw [hw2ne]
            simp only [Bool.false_eq_true, if_false]
            cases hr2 : (v0 :: v').dropWhile notSpace with
            | nil =>
              simp only [if_pos (Or.inl rfl)]
              rw [hr2] at hw2
              rw [← hwt, hw, ← hw2t, hw2, pyWords_nil]
              simp [hexists, hc]
            | cons s0 s' =>
              rw [hr2] at hw2
              have hs0 : notSpace s0 = false :=
                head?_dropWhile_false notSpace (v0 :: v') s0 (by rw [hr2]; rfl)
              have hs0ws : isPySpace s0 = true := by
                simpa [notSpace] using hs0
              have hsne : ¬(s0 :: s' = [] ∨ s0 :: s' = ['>']) := by
                rintro (h | h)
                · cases h
                · have : s0 = '>' := by
                    injection h with h1 _
                  rw [this] at hs0ws
                  cases hs0ws
              have hdec : decide (s0 :: s' = [] ∨ s0 :: s' = ['>']) = false := by
                simpa using hsne
              rw [hdec]
              simp only [Bool.false_eq_true, false_iff]
              rintro ⟨_, hlen⟩
              rw [hr2] at hvdec
              have hs2 : pyWords ((s0 :: s').dropWhile isPySpace) = pyWords (s0 :: s') :=
                pyWords_dropWhile_ws _
              cases hu3 : (s0 :: s').dropWhile isPySpace with
              | nil =>
                have hall : ∀ x ∈ s0 :: s', isPySpace x = true :=
                  List.dropWhile_eq_nil_iff.mp hu3
                refine trailing_contra (c :: t') (s0 :: s') htr
                  ((c :: t').takeWhile isPySpace ++ ((u0 :: u').takeWhile notSpace ++
                    ((r0 :: r').takeWhile isPySpace ++ (v0 :: v').takeWhile notSpace))) ?_
                  (by simp) hall
                rw [List.append_assoc, List.append_assoc, List.append_assoc,
                  ← hvdec, ← hrdec, ← hudec, ← htdec]
              | cons z0 z' =>
                have hz0 : isPySpace z0 = false :=
                  head?_dropWhile_false isPySpace (s0 :: s') z0 (by rw [hu3]; rfl)
                have hw3 : pyWords (z0 :: z') =
                    ((z0 :: z').takeWhile notSpace) :: pyWords ((z0 :: z').dropWhile notSpace) :=
                  pyWords_cons_word z0 z' hz0
                rw [hu3] at hs2
                rw [← hwt, hw, ← hw2t, hw2, ← hs2, hw3] at hlen
                simp at hlen

/-- One keyword's regex check `^<?kw(\s+\S+){1,2}>?$` equals the
word-count description: the normalized body's first word is `kw` (or
`<` + `kw`) and the body has 2 or 3 words. -/
theorem kwMatch_iff (kw : String) (n : List Char)
    (hkne : kw.data ≠ [])
    (hknows : ∀ c ∈ kw.data, isPySpace c = false)
    (hkhd : kw.data.head? ≠ some '<')
    (hhd : ∀ c, n.head? = some c → isPySpace c = false)
    (htr : ∀ c, n.reverse.head? = some c → isPySpace c = false) :
    (kw.data.isPrefixOf (dropLt n) && tailWordsMatch ((dropLt n).drop kw.data.length)) = true ↔
      (((pyWords n).head? = some kw.data ∨ (pyWords n).head? = some ('<' :: kw.data)) ∧
       ((pyWords n).length = 2 ∨ (pyWords n).length = 3)) := by
  obtain ⟨k0, kw', hkw⟩ : ∃ k0 kw', kw.data = k0 :: kw' := by
    cases hk : kw.data with
    | nil => exact absurd hk hkne
    | cons a b => exact ⟨a, b, rfl⟩
  have hk0ns : isPySpace k0 = false := hknows k0 (by rw [hkw]; simp)
  have hk0lt : k0 ≠ '<' := fun he => hkhd (by rw [hkw, he]; rfl)
  have hkwall : ∀ c ∈ kw.data, notSpace c = true := fun c hc => by
    simp [notSpace, hknows c hc]
  constructor
  · rw [Bool.and_eq_true]
    rintro ⟨hpre, htw⟩
    obtain ⟨t, ht⟩ := (isPrefixOf_iff_append kw.data (dropLt n)).mp hpre
    cases n with
    | nil =>
      exfalso
      rw [show dropLt [] = [] from rfl, hkw] at ht
      cases ht
    | cons c0 n' =>
      by_cases hlt : c0 = '<'
      · subst hlt
        have hdl : dropLt ('<' :: n') = n' := by simp [dropLt]
        rw [hdl] at ht htw
        rw [ht, List.drop_left] at htw
        have hn : '<' :: n' = ('<' :: kw.data) ++ t := by rw [ht]; rfl
        have htrt : ∀ c, t.reverse.head? = some c → isPySpace c = false := by
          intro c hc
          apply htr
          rw [hn]
          exact trailing_of_append _ _ _ hc
        obtain ⟨⟨x, hx, hxws⟩, hlen⟩ := (tailWordsMatch_iff t htrt).mp htw
        have hta := takeWhile_append_all notSpace t
          (fun c hcv => by rw [hx] at hcv; cases hcv; simpa [notSpace] using hxws)
          kw.data hkwall
        have hwn := pyWords_cons_word '<' (kw.data ++ t) (by decide)
        have htk : ('<' :: (kw.data ++ t)).takeWhile notSpace = '<' :: kw.data := by
          rw [List.takeWhile_cons]
          simp only [show notSpace '<' = true from by decide, if_true]
          rw [hta.1]
        have htd : ('<' :: (kw.data ++ t)).dropWhile notSpace = t := by
          rw [List.dropWhile_cons]
          simp only [show notSpace '<' = true from by decide, if_true]
          exact hta.2
        rw [hn, show ('<' :: kw.data) ++ t = '<' :: (kw.data ++ t) from rfl]
        rw [hwn, htk, htd]
        constructor
        · right
          rfl
        · rcases hlen with h | h <;> simp [h]
      · have hdl : dropLt (c0 :: n') = c0 :: n' := by simp [dropLt, hlt]
        rw [hdl] at ht htw
        rw [ht, List.drop_left] at htw
        have htrt : ∀ c, t.reverse.head? = some c → isPySpace c = false := by
          intro c hc
          apply htr
          rw [ht]
          exact trailing_of_append _ _ _ hc
        obtain ⟨⟨x, hx, hxws⟩, hlen⟩ := (tailWordsMatch_iff t htrt).mp htw
        have hta := takeWhile_append_all notSpace t
          (fun c hcv => by rw [hx] at hcv; cases hcv; simpa [notSpace] using hxws)
          kw.data hkwall
        have hc0 : c0 = k0 := by
          rw [hkw] at ht
          injection ht
        have hwn := pyWords_cons_word c0 n' (by rw [hc0]; exact hk0ns)
        have hck : c0 :: n' = kw.data ++ t := ht
        rw [show pyWords (c0 :: n') = pyWords (kw.data ++ t) from by rw [hck]]
        rw [show pyWords (kw.data ++ t) =
            ((kw.data ++ t).takeWhile notSpace) :: pyWords ((kw.data ++ t).dropWhile notSpace)
          from by
            rw [hkw]
            exact pyWords_cons_word k0 (kw' ++ t) hk0ns]
        rw [hta.1, hta.2]
        constructor
        · left
          rfl
        · rcases hlen with h | h <;> simp [h]
  · rintro ⟨hhead, hlen⟩
    cases n with
    | nil =>
      exfalso
      rw [pyWords_nil] at hhead
      rcases hhead with h | h <;> cases h
    | cons c0 n' =>
      have hc0 : isPySpace c0 = false := hhd c0 rfl
      have hwn := pyWords_cons_word c0 n' hc0
      have hdect : c0 :: n' =
          (c0 :: n').takeWhile notSpace ++ (c0 :: n').dropWhile notSpace :=
        (List.takeWhile_append_dropWhile notSpace (c0 :: n')).symm
      have hhd0 : (pyWords (c0 :: n')).head? = some ((c0 :: n').takeWhile notSpace) := by
        rw [hwn]
        rfl
      have hlen0 : (pyWords (c0 :: n')).length =
          (pyWords ((c0 :: n').dropWhile notSpace)).length + 1 := by
        rw [hwn]
        simp
      have hwordsne : pyWords ((c0 :: n').dropWhile notSpace) ≠ [] := by
        intro hnil
        rw [hnil] at hlen0
        rcases hlen with h | h <;> rw [h] at hlen0 <;> simp at hlen0
      have ht0ne : (c0 :: n').dropWhile notSpace ≠ [] := by
        intro h
        exact hwordsne (by rw [h, pyWords_nil])
      obtain ⟨x, hx⟩ : ∃ x, ((c0 :: n').dropWhile notSpace).head? = some x := by
        cases hh : ((c0 :: n').dropWhile notSpace) with
        | nil => exact absurd hh ht0ne
        | cons a b => exact ⟨a, rfl⟩
      have hxns : notSpace x = false := head?_dropWhile_false notSpace (c0 :: n') x hx
      have hxws : isPySpace x = true := by
        simpa [notSpace] using hxns
      have htrt : ∀ c, ((c0 :: n').dropWhile notSpace).reverse.head? = some c →
          isPySpace c = false := by
        intro c hc
        apply htr
        rw [hdect]
        exact trailing_of_append _ _ _ hc
      have htw : tailWordsMatch ((c0 :: n').dropWhile notSpace) = true := by
        apply (tailWordsMatch_iff _ htrt).mpr
        refine ⟨⟨x, hx, hxws⟩, ?_⟩
        rcases hlen with h | h <;> rw [h] at hlen0 <;> omega
      rcases hhead with hA | hB
      · have hw0 : (c0 :: n').takeWhile notSpace = kw.data := by
          rw [hhd0] at hA
          injection hA
        have hck : c0 :: n' = kw.data ++ (c0 :: n').dropWhile notSpace := by
          conv_lhs => rw [hdect]
          rw [hw0]
        have hc0k : c0 = k0 := by
          rw [hkw] at hck
          injection hck
        have hdl : dropLt (c0 :: n') = c0 :: n' := by
          simp [dropLt, hc0k ▸ hk0lt]
        rw [hdl, Bool.and_eq_true]
        refine ⟨(isPrefixOf_iff_append _ _).mpr ⟨_, hck⟩, ?_⟩
        rw [show (c0 :: n').drop kw.data.length = (c0 :: n').dropWhile notSpace from by
          conv_lhs => rw [hck]
          exact List.drop_left _ _]
        exact htw
      · have hw0 : (c0 :: n').takeWhile notSpace = '<' :: kw.data := by
          rw [hhd0] at hB
          injection hB
        have hck : c0 :: n' = ('<' :: kw.data) ++ (c0 :: n').dropWhile notSpace := by
          conv_lhs => rw [hdect]
          rw [hw0]
        have hc0k : c0 = '<' := by
          injection hck
        have hn' : n' = kw.data ++ (c0 :: n').dropWhile notSpace := by
          injection hck
        have hdl : dropLt (c0 :: n') = n' := by
          simp [dropLt, hc0k]
        rw [hdl, Bool.and_eq_true]
        refine ⟨(isPrefixOf_iff_append _ _).mpr ⟨_, hn'⟩, ?_⟩
        rw [show n'.drop kw.data.length = (c0 :: n').dropWhile notSpace from by
          conv_lhs => rw [hn']
          exact List.drop_left _ _]
        exact htw

/-- Modelled from the amended claim's words: the body's first word (of
the normalized body, `<`-prefixed or not) equals one of the keywords and
the body has exactly 2 or 3 whitespace-delimited words. -/
def wordMatchSpec (kws : List String) (n : List Char) : Bool :=
  (kws.any fun kw =>
    ((pyWords n).head? == some kw.data) || ((pyWords n).head? == some ('<' :: kw.data))) &&
  (((pyWords n).length == 2) || ((pyWords n).length == 3))

theorem mediaMatch_eq_wordMatch (kws : List String) (n : List Char)
    (hkws : ∀ kw ∈ kws, kw.data ≠ [] ∧ (∀ c ∈ kw.data, isPySpace c = false) ∧
      kw.data.head? ≠ some '<')
    (hhd : ∀ c, n.head? = some c → isPySpace c = false)
    (htr : ∀ c, n.reverse.head? = some c → isPySpace c = false) :
    mediaMatch kws n = wordMatchSpec kws n := by
  have bext : ∀ x y : Bool, (x = true ↔ y = true) → x = y := by decide
  apply bext
  simp only [mediaMatch, wordMatchSpec, List.any_eq_true, Bool.and_eq_true, Bool.or_eq_true,
    beq_iff_eq]
  constructor
  · rintro ⟨kw, hmem, hf⟩
    obtain ⟨h1, h2, h3⟩ := hkws kw hmem
    have hf' : (kw.data.isPrefixOf (dropLt n) &&
        tailWordsMatch ((dropLt n).drop kw.data.length)) = true := by
      rw [Bool.and_eq_true]
      exact hf
    obtain ⟨hh, hl⟩ := (kwMatch_iff kw n h1 h2 h3 hhd htr).mp hf'
    exact ⟨⟨kw, hmem, hh⟩, hl⟩
  · rintro ⟨⟨kw, hmem, hh⟩, hl⟩
    obtain ⟨h1, h2, h3⟩ := hkws kw hmem
    have hf' := (kwMatch_iff kw n h1 h2 h3 hhd htr).mpr ⟨hh, hl⟩
    rw [Bool.and_eq_true] at hf'
    exact ⟨kw, hmem, hf'⟩

/-- Modelled from the amended claim's words: classify by first word and
word count — 2–3 words starting with a media keyword (optionally behind
`<`) give that keyword's kind; the location-colon and link checks and
the final `text` default are as in the chain. -/
def classifyByWords (m : String) : String :=
  let n := msgNormalized m
  if wordMatchSpec ["image", "imagen", "foto", "photo", "media"] n then "image"
  else if wordMatchSpec ["video", "vídeo"] n then "video"
  else if wordMatchSpec ["audio"] n then "audio"
  else if wordMatchSpec ["sticker"] n then "sticker"
  else if wordMatchSpec ["gif"] n then "gif"
  else if wordMatchSpec ["document", "documento"] n then "document"
  else if wordMatchSpec ["contact"] n then "contact"
  else if locMatch n then "location"
  else if containsHttp m then "link"
  else "text"

/-- C4 amended: the classification `parse_chat` performs equals the
word-count description for every body — in particular the media kinds
require exactly 2 or 3 words (single-word bodies like `"sticker"` fall
through to `text`), and the location-colon pattern is exempt from any
word bound. -/
theorem c4_amended_word_count :
  ∀ m : String, classifyMessagePolars m = classifyByWords m := by
  intro m
  have hhd : ∀ c, (msgNormalized m).head? = some c → isPySpace c = false :=
    fun c h => msgNormalized_head m c h
  have htr : ∀ c, (msgNormalized m).reverse.head? = some c → isPySpace c = false :=
    fun c h => msgNormalized_last m c h
  unfold classifyMessagePolars classifyByWords
  simp only [mediaMatch_eq_wordMatch ["image", "imagen", "foto", "photo", "media"] _
      (by decide) hhd htr,
    mediaMatch_eq_wordMatch ["video", "vídeo"] _ (by decide) hhd htr,
    mediaMatch_eq_wordMatch ["audio"] _ (by decide) hhd htr,
    mediaMatch_eq_wordMatch ["sticker"] _ (by decide) hhd htr,
    mediaMatch_eq_wordMatch ["gif"] _ (by decide) hhd htr,
    mediaMatch_eq_wordMatch ["document", "documento"] _ (by decide) hhd htr,
    mediaMatch_eq_wordMatch ["contact"] _ (by decide) hhd htr]

/-! ## C5: the last-successful-format cache is not observationally
transparent -/

/-- C5 counterexample: parsing `12/25/23, 10:30:00` against the default
format list caches `%m/%d/%y, %H:%M:%S`; the next token
`01/02/23, 10:30:00` then parses as January 2 with the cache but as
February 1 without it (the earlier candidate `%d/%m/%y, %H:%M:%S` wins). -/
theorem c5_cached_format_changes_result :
  (parseTimestampCached "12/25/23, 10:30:00" DATE_FORMATS none).2 =
    some "%m/%d/%y, %H:%M:%S" ∧
  (parseTimestampCached "01/02/23, 10:30:00" DATE_FORMATS (some "%m/%d/%y, %H:%M:%S")).1 =
    some ⟨2023, 1, 2, 10, 30, 0⟩ ∧
  (parseTimestampCached "01/02/23, 10:30:00" DATE_FORMATS none).1 =
    some ⟨2023, 2, 1, 10, 30, 0⟩ ∧
  (parseTimestampCached "01/02/23, 10:30:00" DATE_FORMATS (some "%m/%d/%y, %H:%M:%S")).1 ≠
    (parseTimestampCached "01/02/23, 10:30:00" DATE_FORMATS none).1 :=
  ⟨rfl, rfl, rfl, by decide⟩

theorem tryFormats_isSome_of_mem (fmts : List String) (f t : String)
    (hmem : f ∈ fmts) (hsome : (strptime t f).isSome = true) :
    (tryFormats t fmts).isSome = true := by
  induction fmts with
  | nil => cases hmem
  | cons g fs ih =>
    unfold tryFormats
    cases hg : strptime t g with
    | some r => simp
    | none =>
      simp only [hg]
      rcases List.mem_cons.mp hmem with rfl | hmem'
      · rw [hg] at hsome
        cases hsome
      · exact ih hmem'

/-- C5 amended: a cache holding a format from the candidate list (the
only cache states reachable from earlier successful parses against that
list) never changes *whether* parsing succeeds, and whenever the cached
format fails on the normalized token the result is identical to the
uncached call; but when the token parses under both the cached format
and an earlier candidate, the returned datetime may differ
(`c5_cached_format_changes_result`). -/
theorem c5_amended_cache_effect :
  ∀ (s : String) (fmts : List String) (f : String), f ∈ fmts →
    (((parseTimestampCached s fmts (some f)).1.isSome = true) ↔
      ((parseTimestampCached s fmts none).1.isSome = true)) ∧
    (strptime (normalizeTimestampStr s) f = none →
      (parseTimestampCached s fmts (some f)).1 = (parseTimestampCached s fmts none).1) := by
  intro s fmts f hmem
  unfold parseTimestampCached
  cases hhit : strptime (normalizeTimestampStr s) f with
  | some r =>
    simp only [hhit]
    refine ⟨⟨fun _ => ?_, fun _ => by simp⟩, fun hnone => by simp at hnone⟩
    have h1 := tryFormats_isSome_of_mem fmts f (normalizeTimestampStr s) hmem (by simp [hhit])
    rcases htf : tryFormats (normalizeTimestampStr s) fmts with _ | ⟨r2, f2⟩
    · rw [htf] at h1
      cases h1
    · simp [htf]
  | none =>
    simp only [hhit]
    refine ⟨?_, fun _ => ?_⟩ <;>
      rcases htf : tryFormats (normalizeTimestampStr s) fmts with _ | ⟨r2, f2⟩ <;>
        simp [htf]

/-- C5 amended, witnessed at the counterexample's input. -/
theorem c5_amended_witness :
  ("%m/%d/%y, %H:%M:%S" ∈ DATE_FORMATS) ∧
  (((parseTimestampCached "01/02/23, 10:30:00" DATE_FORMATS
      (some "%m/%d/%y, %H:%M:%S")).1.isSome = true) ↔
    ((parseTimestampCached "01/02/23, 10:30:00" DATE_FORMATS none).1.isSome = true)) :=
  ⟨by decide,
   (c5_amended_cache_effect "01/02/23, 10:30:00" DATE_FORMATS "%m/%d/%y, %H:%M:%S"
      (by decide)).1⟩

/-! ## C6: system-phrase filtering is case-sensitive -/

/-- Case-insensitive substring test — the comparison the claim asserts. -/
def containsCaseInsensitive (m p : String) : Bool :=
  isSubList (pyLowerL p.data) (pyLowerL m.data)

def c6Input : String := "[12/25/23, 10:30:45] Alice: You REMOVED me"

/-- C6 counterexample: with `filter_system=True` the pipeline retains a
row whose body contains the system phrase `"removed"` under
case-insensitive comparison — polars `str.contains` is case-sensitive
and `"REMOVED"` does not match. -/
theorem c6_case_sensitive_filter_retains_row :
  parse_whatsapp_export c6Input true 1 none =
    Except.ok [⟨⟨2023, 12, 25, 10, 30, 45⟩, "Alice", "Alice", "You REMOVED me", "text"⟩] ∧
  containsCaseInsensitive "You REMOVED me" "removed" = true :=
  ⟨rfl, rfl⟩

/-- C6 amended: after the pipeline with `filter_system=True`, no
retained row's body contains any of the fixed system phrases under
*case-sensitive* comparison (the comparison the polars filter actually
performs), and no retained author equals the bot sentinel name under
case-insensitive comparison. -/
theorem c6_amended_filtering :
  ∀ (raw : String) (mm : Nat) (y : Option Nat) (df : List Row) (r : Row),
    parse_whatsapp_export raw true mm y = Except.ok df → r ∈ df →
    (∀ p ∈ SYSTEM_PATTERNS, containsPhrase r.message p = false) ∧
    pyLowerS r.name ≠ "meta ai" := by
  intro raw mm y df r hok hmem
  rcases hpc : parse_chat raw with e | df0
  · unfold parse_whatsapp_export at hok
    rw [hpc] at hok
    cases hok
  · unfold parse_whatsapp_export at hok
    rw [hpc] at hok
    simp only [Except.map, Except.ok.injEq] at hok
    rw [← hok] at hmem
    have h2 : r ∈ filter_bot_users (filter_system_messages df0) := by
      have h3 : r ∈ yearFilterStep y (filter_bot_users (filter_system_messages df0)) := by
        unfold minMessagesStep at hmem
        split at hmem
        · exact List.mem_of_mem_filter hmem
        · exact hmem
      rcases y with _ | yv
      · exact h3
      · simp only [yearFilterStep] at h3
        by_cases hy : yv ≠ 0
        · rw [if_pos hy] at h3
          exact List.mem_of_mem_filter h3
        · rw [if_neg hy] at h3
          exact h3
    obtain ⟨h4, hbot⟩ := List.mem_filter.mp h2
    obtain ⟨_, hsys⟩ := List.mem_filter.mp h4
    constructor
    · intro p hp
      have hany : (SYSTEM_PATTERNS.any fun p => containsPhrase r.message p) = false := by
        simpa using hsys
      simpa using List.any_eq_false.mp hany p hp
    · intro heq
      have hcontains : ((BOT_NAMES.map pyLowerS).contains (pyLowerS r.name)) = false := by
        simpa using hbot
      rw [heq] at hcontains
      simp [BOT_NAMES, pyLowerS, pyLowerL, pyLowerC] at hcontains

def c6wInput : String := "[12/25/23, 10:30:45] Alice: hey"

def c6wRow : Row := ⟨⟨2023, 12, 25, 10, 30, 45⟩, "Alice", "Alice", "hey", "text"⟩

/-- C6 amended, witnessed on a one-message export. -/
theorem c6_amended_witness :
  (∀ p ∈ SYSTEM_PATTERNS, containsPhrase c6wRow.message p = false) ∧
  pyLowerS c6wRow.name ≠ "meta ai" :=
  c6_amended_filtering c6wInput 1 none [c6wRow] c6wRow rfl (by simp)

/-! ## C8: AM/PM spelling normalization

The four time spellings `3:45PM`, `3:45 PM`, `3:45 p.m.`, `3:45pm` are
appended to an arbitrary date prefix `d`.  The three meridiem
substitutions act locally: since each appended spelling starts with the
digit `3` — which is not `.`, not `[Mm]`, not `[APap]` — no substitution
window can straddle the boundary between `d` and the appended part, so
each scanner processes `d` identically across the four variants and
normalizes the appended parts to the single spelling `3:45 PM`. -/

theorem sub1Guard_of_c1 (a c1 b c2 : Char) (h : c1 ≠ '.') :
    sub1Guard a c1 b c2 = false := by
  simp [sub1Guard, h]

theorem sub1Guard_of_b (a c1 b c2 : Char) (h : isM b = false) :
    sub1Guard a c1 b c2 = false := by
  simp [sub1Guard, h]

theorem sub1Guard_of_c2 (a c1 b c2 : Char) (h : c2 ≠ '.') :
    sub1Guard a c1 b c2 = false := by
  simp [sub1Guard, h]

theorem sub2Guard_of_b (a b c : Char) (h : isAP b = false) :
    sub2Guard a b c = false := by
  simp [sub2Guard, h]

theorem sub2Guard_of_c (a b c : Char) (h : isM c = false) :
    sub2Guard a b c = false := by
  simp [sub2Guard, h]

theorem sub3Guard_of_b (p : Option Char) (a b : Char) (nx : Option Char)
    (h : isM b = false) : sub3Guard p a b nx = false := by
  simp [sub3Guard, h]

/-- Substitution 1 distributes over an append whose right part starts
with a character that can close no window (not `.`, not `[Mm]`). -/
theorem sub1_append (c0 : Char) (v' : List Char)
    (hdot : c0 ≠ '.') (hm : isM c0 = false) :
    ∀ (n : Nat) (u : List Char), u.length ≤ n →
      sub1 (u ++ (c0 :: v')) = sub1 u ++ sub1 (c0 :: v') := by
  intro n
  induction n with
  | zero =>
    intro u hu
    have hu0 : u = [] := List.length_eq_zero.mp (Nat.le_zero.mp hu)
    subst hu0
    simp [sub1]
  | succ n ih =>
    intro u hu
    match u with
    | [] => simp [sub1]
    | [a] =>
      match v' with
      | [] => simp [sub1]
      | [e1] => simp [sub1]
      | e1 :: e2 :: v'' =>
        show sub1 (a :: c0 :: e1 :: e2 :: v'') = sub1 [a] ++ sub1 (c0 :: e1 :: e2 :: v'')
        simp [sub1, sub1Guard_of_c1 a c0 e1 e2 hdot]
    | [a, b] =>
      match v' with
      | [] => simp [sub1]
      | e1 :: v'' =>
        have h1 : sub1 ([b] ++ (c0 :: e1 :: v'')) = sub1 [b] ++ sub1 (c0 :: e1 :: v'') := by
          apply ih
          simp at hu ⊢
          omega
        show sub1 (a :: b :: c0 :: e1 :: v'') = sub1 [a, b] ++ sub1 (c0 :: e1 :: v'')
        simp only [List.cons_append, List.nil_append] at h1
        rw [show sub1 (a :: b :: c0 :: e1 :: v'') =
          if sub1Guard a b c0 e1 then a :: c0 :: sub1 v''
          else a :: sub1 (b :: c0 :: e1 :: v'') from rfl]
        rw [sub1Guard_of_b a b c0 e1 hm, if_neg (by simp), h1]
        simp [sub1]
    | [a, b, c] =>
      have h1 : sub1 ([b, c] ++ (c0 :: v')) = sub1 [b, c] ++ sub1 (c0 :: v') := by
        apply ih
        simp at hu ⊢
        omega
      show sub1 (a :: b :: c :: c0 :: v') = sub1 [a, b, c] ++ sub1 (c0 :: v')
      simp only [List.cons_append, List.nil_append] at h1
      rw [show sub1 (a :: b :: c :: c0 :: v') =
        if sub1Guard a b c c0 then a :: c :: sub1 v'
        else a :: sub1 (b :: c :: c0 :: v') from rfl]
      rw [sub1Guard_of_c2 a b c c0 hdot, if_neg (by simp), h1]
      simp [sub1]
    | a :: b :: c :: dd :: u4 =>
      rw [show (a :: b :: c :: dd :: u4) ++ (c0 :: v') =
        a :: b :: c :: dd :: (u4 ++ (c0 :: v')) from rfl]
      rw [show sub1 (a :: b :: c :: dd :: (u4 ++ (c0 :: v'))) =
        if sub1Guard a b c dd then a :: c :: sub1 (u4 ++ (c0 :: v'))
        else a :: sub1 (b :: c :: dd :: (u4 ++ (c0 :: v'))) from rfl]
      rw [show sub1 (a :: b :: c :: dd :: u4) =
        if sub1Guard a b c dd then a :: c :: sub1 u4
        else a :: sub1 (b :: c :: dd :: u4) from rfl]
      cases hg : sub1Guard a b c dd
      · have h1 : sub1 ((b :: c :: dd :: u4) ++ (c0 :: v')) =
            sub1 (b :: c :: dd :: u4) ++ sub1 (c0 :: v') := by
          apply ih
          simp at hu ⊢
          omega
        simp only [List.cons_append] at h1
        simp [h1]
      · have h1 : sub1 (u4 ++ (c0 :: v')) = sub1 u4 ++ sub1 (c0 :: v') := by
          apply ih
          simp at hu ⊢
          omega
        simp [h1]

/-- Substitution 2 distributes over an append whose right part starts
with a character that can close no window (not `[APap]`, not `[Mm]`). -/
theorem sub2_append (c0 : Char) (v' : List Char)
    (hap : isAP c0 = false) (hm : isM c0 = false) :
    ∀ (n : Nat) (u : List Char), u.length ≤ n →
      sub2 (u ++ (c0 :: v')) = sub2 u ++ sub2 (c0 :: v') := by
  intro n
  induction n with
  | zero =>
    intro u hu
    have hu0 : u = [] := List.length_eq_zero.mp (Nat.le_zero.mp hu)
    subst hu0
    simp [sub2]
  | succ n ih =>
    intro u hu
    match u with
    | [] => simp [sub2]
    | [a] =>
      match v' with
      | [] => simp [sub2]
      | e1 :: v'' =>
        show sub2 (a :: c0 :: e1 :: v'') = sub2 [a] ++ sub2 (c0 :: e1 :: v'')
        simp [sub2, sub2Guard_of_b a c0 e1 hap]
    | [a, b] =>
      have h1 : sub2 ([b] ++ (c0 :: v')) = sub2 [b] ++ sub2 (c0 :: v') := by
        apply ih
        simp at hu ⊢
        omega
      show sub2 (a :: b :: c0 :: v') = sub2 [a, b] ++ sub2 (c0 :: v')
      simp only [List.cons_append, List.nil_append] at h1
      rw [show sub2 (a :: b :: c0 :: v') =
        if sub2Guard a b c0 then a :: ' ' :: b :: c0 :: sub2 v'
        else a :: sub2 (b :: c0 :: v') from rfl]
      rw [sub2Guard_of_c a b c0 hm, if_neg (by simp), h1]
      simp [sub2]
    | a :: b :: c :: u3 =>
      rw [show (a :: b :: c :: u3) ++ (c0 :: v') = a :: b :: c :: (u3 ++ (c0 :: v')) from rfl]
      rw [show sub2 (a :: b :: c :: (u3 ++ (c0 :: v'))) =
        if sub2Guard a b c then a :: ' ' :: b :: c :: sub2 (u3 ++ (c0 :: v'))
        else a :: sub2 (b :: c :: (u3 ++ (c0 :: v'))) from rfl]
      rw [show sub2 (a :: b :: c :: u3) =
        if sub2Guard a b c then a :: ' ' :: b :: c :: sub2 u3
        else a :: sub2 (b :: c :: u3) from rfl]
      cases hg : sub2Guard a b c
      · have h1 : sub2 ((b :: c :: u3) ++ (c0 :: v')) =
            sub2 (b :: c :: u3) ++ sub2 (c0 :: v') := by
          apply ih
          simp at hu ⊢
          omega
        simp only [List.cons_append] at h1
        simp [h1]
      · have h1 : sub2 (u3 ++ (c0 :: v')) = sub2 u3 ++ sub2 (c0 :: v') := by
          apply ih
          simp at hu ⊢
          omega
        simp [h1]

/-- If a character is not `[APap]`, the substitution-3 scanner emits it
unchanged and moves on. -/
theorem sub3_cons_notAP (p : Option Char) (a : Char) (l : List Char)
    (ha : isAP a = false) : sub3 p (a :: l) = a :: sub3 (some a) l := by
  match l with
  | [] => simp [sub3]
  | b :: rest =>
    rw [show sub3 p (a :: b :: rest) =
      if sub3Guard p a b rest.head? then
        pyUpperC a :: pyUpperC b :: sub3 (some (pyUpperC b)) rest
      else a :: sub3 (some a) (b :: rest) from rfl]
    rw [if_neg (by simp [sub3Guard, ha])]

/-- Substitution 3 maps two appended tails to equal results for every
prefix and every incoming boundary state, provided both tails start with
the same non-`[Mm]` character and are mapped equally for every state. -/
theorem sub3_append_congr (c0 : Char) (t1 t2 : List Char)
    (h1 : t1.head? = some c0) (h2 : t2.head? = some c0) (hm : isM c0 = false)
    (hbase : ∀ p, sub3 p t1 = sub3 p t2) :
    ∀ (n : Nat) (u : List Char), u.length ≤ n → ∀ p,
      sub3 p (u ++ t1) = sub3 p (u ++ t2) := by
  intro n
  induction n with
  | zero =>
    intro u hu p
    have hu0 : u = [] := List.length_eq_zero.mp (Nat.le_zero.mp hu)
    subst hu0
    simpa using hbase p
  | succ n ih =>
    intro u hu p
    match u with
    | [] => simpa using hbase p
    | [a] =>
      obtain ⟨t1', rfl⟩ : ∃ t1', t1 = c0 :: t1' := by
        cases t1 with
        | nil => cases h1
        | cons x xs => exact ⟨xs, by cases h1; rfl⟩
      obtain ⟨t2', rfl⟩ : ∃ t2', t2 = c0 :: t2' := by
        cases t2 with
        | nil => cases h2
        | cons x xs => exact ⟨xs, by cases h2; rfl⟩
      show sub3 p (a :: c0 :: t1') = sub3 p (a :: c0 :: t2')
      rw [show sub3 p (a :: c0 :: t1') =
        if sub3Guard p a c0 t1'.head? then
          pyUpperC a :: pyUpperC c0 :: sub3 (some (pyUpperC c0)) t1'
        else a :: sub3 (some a) (c0 :: t1') from rfl]
      rw [show sub3 p (a :: c0 :: t2') =
        if sub3Guard p a c0 t2'.head? then
          pyUpperC a :: pyUpperC c0 :: sub3 (some (pyUpperC c0)) t2'
        else a :: sub3 (some a) (c0 :: t2') from rfl]
      rw [sub3Guard_of_b p a c0 t1'.head? hm, sub3Guard_of_b p a c0 t2'.head? hm]
      simp only [if_neg (by simp : ¬(false = true))]
      rw [hbase (some a)]
    | a :: b :: u2 =>
      have hhead : (u2 ++ t1).head? = (u2 ++ t2).head? := by
        rw [List.head?_append, List.head?_append, h1, h2]
      rw [show (a :: b :: u2) ++ t1 = a :: b :: (u2 ++ t1) from rfl]
      rw [show (a :: b :: u2) ++ t2 = a :: b :: (u2 ++ t2) from rfl]
      rw [show sub3 p (a :: b :: (u2 ++ t1)) =
        if sub3Guard p a b (u2 ++ t1).head? then
          pyUpperC a :: pyUpperC b :: sub3 (some (pyUpperC b)) (u2 ++ t1)
        else a :: sub3 (some a) (b :: (u2 ++ t1)) from rfl]
      rw [show sub3 p (a :: b :: (u2 ++ t2)) =
        if sub3Guard p a b (u2 ++ t2).head? then
          pyUpperC a :: pyUpperC b :: sub3 (some (pyUpperC b)) (u2 ++ t2)
        else a :: sub3 (some a) (b :: (u2 ++ t2)) from rfl]
      rw [hhead]
      cases hg : sub3Guard p a b (u2 ++ t2).head?
      · simp only [Bool.false_eq_true, if_false]
        have := ih (b :: u2) (by simp at hu ⊢; omega) (some a)
        simpa using this
      · simp only [if_true]
        have := ih u2 (by simp at hu ⊢; omega) (some (pyUpperC b))
        simpa using this

/-- `rstrip` is the identity on an append whose right part ends in a
non-whitespace character. -/
theorem rstrip_append (u v : List Char) (cL : Char) (w : List Char)
    (hrev : v.reverse = cL :: w) (hcL : isPySpace cL = false) :
    rstripWs (u ++ v) = u ++ v := by
  unfold rstripWs
  rw [List.reverse_append, hrev,
    show (cL :: w) ++ u.reverse = cL :: (w ++ u.reverse) from rfl,
    List.dropWhile_cons, hcL]
  simp only [Bool.false_eq_true, if_false]
  have hv : v = w.reverse ++ [cL] := by
    have := congrArg List.reverse hrev
    simpa using this
  simp [hv]

/-- `lstrip` distributes over an append whose right part starts with a
non-whitespace character. -/
theorem lstrip_append (u v : List Char) (c0 : Char)
    (h0 : v.head? = some c0) (hc0 : isPySpace c0 = false) :
    lstripWs (u ++ v) = lstripWs u ++ v := by
  obtain ⟨v', rfl⟩ : ∃ v', v = c0 :: v' := by
    cases v with
    | nil => cases h0
    | cons x xs => exact ⟨xs, by cases h0; rfl⟩
  unfold lstripWs
  rw [List.dropWhile_append]
  by_cases h : (u.dropWhile isPySpace).isEmpty
  · rw [if_pos h, List.dropWhile_cons, hc0]
    simp only [Bool.false_eq_true, if_false]
    simp [List.isEmpty_iff.mp h]
  · rw [if_neg h]

/-- Stripping distributes over an append whose right part neither starts
nor ends with whitespace (only the prefix's leading whitespace goes). -/
theorem pyStrip_append (u v : List Char) (c0 cL : Char) (w : List Char)
    (h0 : v.head? = some c0) (hc0 : isPySpace c0 = false)
    (hrev : v.reverse = cL :: w) (hcL : isPySpace cL = false) :
    pyStripL (u ++ v) = lstripWs u ++ v := by
  unfold pyStripL
  rw [rstrip_append u v cL w hrev hcL, lstrip_append u v c0 h0 hc0]

/-- Reduce the normalization of `d ++ v` to a shape in which everything
that depends on `d` is independent of which time spelling `v` is: the
appended part contributes only `x = sub2 (sub1 v)`. -/
theorem normalize_append (d : String) (v : String) (x : List Char)
    (w1 : List Char) (hv : v.data = '3' :: w1)
    (cL : Char) (w2 : List Char) (hrev : v.data.reverse = cL :: w2)
    (hcL : isPySpace cL = false)
    (w3 : List Char) (hs1 : sub1 v.data = '3' :: w3)
    (hs2 : sub2 ('3' :: w3) = x) :
    normalizeTimestampStr (d ++ v) =
      ⟨dotfix (sub3 none (sub2 (sub1 (lstripWs d.data)) ++ x))⟩ := by
  unfold normalizeTimestampStr
  rw [String.data_append]
  rw [pyStrip_append d.data v.data '3' cL w2 (by rw [hv]; rfl) (by decide) hrev hcL]
  rw [hv]
  rw [sub1_append '3' w1 (by decide) (by decide) (lstripWs d.data).length (lstripWs d.data)
    le_rfl]
  rw [← hv, hs1]
  rw [sub2_append '3' w3 (by decide) (by decide) (sub1 (lstripWs d.data)).length _ le_rfl]
  rw [hs2]

/-- Equal normalizations give equal parses: `_parse_timestamp` consults
the token only through its normalization. -/
theorem parseTimestampCached_congr (s1 s2 : String)
    (h : normalizeTimestampStr s1 = normalizeTimestampStr s2) :
    ∀ (fmts : List String) (cache : Option String),
      parseTimestampCached s1 fmts cache = parseTimestampCached s2 fmts cache := by
  intro fmts cache
  unfold parseTimestampCached
  rw [h]

/-- C8: for *every* date prefix `d` (in particular every one that parses
under some candidate format), the four time spellings normalize to the
same string, and therefore `_parse_timestamp` returns identical results
on all four tokens, for every format list and every cache state. -/
theorem c8_ampm_normalization :
  ∀ d : String,
    (normalizeTimestampStr (d ++ "3:45PM") = normalizeTimestampStr (d ++ "3:45 PM") ∧
     normalizeTimestampStr (d ++ "3:45 p.m.") = normalizeTimestampStr (d ++ "3:45 PM") ∧
     normalizeTimestampStr (d ++ "3:45pm") = normalizeTimestampStr (d ++ "3:45 PM")) ∧
    (∀ (fmts : List String) (cache : Option String),
      parseTimestampCached (d ++ "3:45PM") fmts cache =
        parseTimestampCached (d ++ "3:45 PM") fmts cache ∧
      parseTimestampCached (d ++ "3:45 p.m.") fmts cache =
        parseTimestampCached (d ++ "3:45 PM") fmts cache ∧
      parseTimestampCached (d ++ "3:45pm") fmts cache =
        parseTimestampCached (d ++ "3:45 PM") fmts cache) := by
  intro d
  have hbase : ∀ p, sub3 p "3:45 pm".data = sub3 p "3:45 PM".data := by
    intro p
    rw [show ("3:45 pm".data) = '3' :: ":45 pm".data from rfl,
      show ("3:45 PM".data) = '3' :: ":45 PM".data from rfl,
      sub3_cons_notAP p '3' _ (by decide), sub3_cons_notAP p '3' _ (by decide)]
    decide
  have a1 : normalizeTimestampStr (d ++ "3:45PM") =
      ⟨dotfix (sub3 none (sub2 (sub1 (lstripWs d.data)) ++ "3:45 PM".data))⟩ :=
    normalize_append d "3:45PM" "3:45 PM".data ":45PM".data rfl
      'M' "P54:3".data (by decide) (by decide) ":45PM".data (by decide) (by decide)
  have a2 : normalizeTimestampStr (d ++ "3:45 PM") =
      ⟨dotfix (sub3 none (sub2 (sub1 (lstripWs d.data)) ++ "3:45 PM".data))⟩ :=
    normalize_append d "3:45 PM" "3:45 PM".data ":45 PM".data rfl
      'M' "P 54:3".data (by decide) (by decide) ":45 PM".data (by decide) (by decide)
  have a3 : normalizeTimestampStr (d ++ "3:45 p.m.") =
      ⟨dotfix (sub3 none (sub2 (sub1 (lstripWs d.data)) ++ "3:45 pm".data))⟩ :=
    normalize_append d "3:45 p.m." "3:45 pm".data ":45 p.m.".data rfl
      '.' "m.p 54:3".data (by decide) (by decide) ":45 pm".data (by decide) (by decide)
  have a4 : normalizeTimestampStr (d ++ "3:45pm") =
      ⟨dotfix (sub3 none (sub2 (sub1 (lstripWs d.data)) ++ "3:45 pm".data))⟩ :=
    normalize_append d "3:45pm" "3:45 pm".data ":45pm".data rfl
      'm' "p54:3".data (by decide) (by decide) ":45pm".data (by decide) (by decide)
  have hpm : sub3 none (sub2 (sub1 (lstripWs d.data)) ++ "3:45 pm".data) =
      sub3 none (sub2 (sub1 (lstripWs d.data)) ++ "3:45 PM".data) :=
    sub3_append_congr '3' "3:45 pm".data "3:45 PM".data (by decide) (by decide) (by decide)
      hbase (sub2 (sub1 (lstripWs d.data))).length _ le_rfl none
  have e1 : normalizeTimestampStr (d ++ "3:45PM") = normalizeTimestampStr (d ++ "3:45 PM") := by
    rw [a1, a2]
  have e3 : normalizeTimestampStr (d ++ "3:45 p.m.") =
      normalizeTimestampStr (d ++ "3:45 PM") := by
    rw [a3, a2, hpm]
  have e4 : normalizeTimestampStr (d ++ "3:45pm") = normalizeTimestampStr (d ++ "3:45 PM") := by
    rw [a4, a2, hpm]
  exact ⟨⟨e1, e3, e4⟩, fun fmts cache =>
    ⟨parseTimestampCached_congr _ _ e1 fmts cache,
     parseTimestampCached_congr _ _ e3 fmts cache,
     parseTimestampCached_congr _ _ e4 fmts cache⟩⟩

/-! ## C9: failure semantics -/

/-- C9: `parse_chat` returns the descriptive error exactly when both
pattern families segmented zero messages; the error value is the only
possible error (every run is that error or a table); and the downstream
filters can legitimately reduce the table to zero rows, returned as an
`ok` value, not an error. -/
theorem c9_failure_semantics :
  (∀ raw : String,
    (parse_chat raw = Except.error ERR_NO_MESSAGES ↔
      (segResult (familyPass 0 raw) = [] ∧ segResult (familyPass 1 raw) = [])) ∧
    (parse_chat raw = Except.error ERR_NO_MESSAGES ∨
      ∃ df, parse_chat raw = Except.ok df)) ∧
  parse_whatsapp_export "[12/25/23, 10:30:45] Alice: you removed me" true 1 none =
    Except.ok [] := by
  constructor
  · intro raw
    unfold parse_chat parseChatCore
    by_cases h0 : (segResult (familyPass 0 raw)).isEmpty
    · by_cases h1 : (segResult (familyPass 1 raw)).isEmpty
      · simp_all [List.isEmpty_iff]
      · simp_all [List.isEmpty_iff]
    · simp_all [List.isEmpty_iff]
  · rfl

/-! ## C10: `load_chat_file` extension dispatch -/

/-- C10: for an existing file, the zip loader is chosen iff the suffix
lowercases to `.zip`, the text loader iff it lowercases to `.txt`
(so `.TXT` and `.Zip` are accepted), and the unsupported-format error is
raised exactly when it is neither. -/
theorem c10_extension_dispatch :
  (∀ p : String,
    (load_chat_file p true = Except.ok ChatLoader.zipL ↔
      pyLowerS (pathSuffix p) = ".zip") ∧
    (load_chat_file p true = Except.ok ChatLoader.txtL ↔
      pyLowerS (pathSuffix p) = ".txt") ∧
    (load_chat_file p true = Except.error ("Unsupported file format: " ++ pathSuffix p) ↔
      (pyLowerS (pathSuffix p) ≠ ".zip" ∧ pyLowerS (pathSuffix p) ≠ ".txt"))) ∧
  load_chat_file "a.TXT" true = Except.ok ChatLoader.txtL ∧
  load_chat_file "b.Zip" true = Except.ok ChatLoader.zipL := by
  refine ⟨fun p => ?_, rfl, rfl⟩
  unfold load_chat_file
  by_cases hz : pyLowerS (pathSuffix p) = ".zip" <;>
    by_cases ht : pyLowerS (pathSuffix p) = ".txt" <;>
      simp_all

end WW
